import Mathlib

/-!
Verification of the graphtactics interception planner core.

Shallow embedding of the Python sources under `backend/graphtactics/`:
`road_network.py` (snapping and Dijkstra routing from mid-edge positions),
`escape_model.py` (escape-tree construction, NJOI marking, scoring, cover
propagation), `planner.py` (vehicle pre-filter, CP decision matrix, plan
post-processing).  Times, coordinates and travel weights (Python floats)
are embedded as rationals; the one transcendental expression
(`math.exp` in the scoring formula) is embedded over the reals.
-/

namespace GraphTactics

/-! ## Cover status  (tree_node.py, `CoverStatus`) -/

/-- `CoverStatus` from `tree_node.py`: UNCOVERED = 0, MIXED = 1, COVERED = 2. -/
inductive CoverStatus where
  | UNCOVERED
  | MIXED
  | COVERED
deriving DecidableEq, Repr

/-- The data carried by a `TreeNode` (tree_node.py) that is relevant to
cover propagation; the tree structure itself is the rose tree `TTree`. -/
structure TNData where
  osmid : Int
  time_reached : ℚ
  score : ℤ
  is_njoi : Bool
  is_control_node : Bool
  cover : CoverStatus
deriving DecidableEq, Repr

/-- An escape tree as a rose tree: the in-memory `anytree` structure of
`TreeNode`s (parent links plus derived children) rooted at the synthetic
root with osmid 0. -/
inductive TTree where
  | node : TNData → List TTree → TTree

namespace TTree

/-- Payload of the root of a tree. -/
def data : TTree → TNData
  | .node d _ => d

/-- Children of the root of a tree. -/
def children : TTree → List TTree
  | .node _ cs => cs

/-- `anytree`'s `is_leaf`: a node with no children. -/
def is_leaf (t : TTree) : Bool := t.children.isEmpty

/-- Size, used for recursion over the nested inductive. -/
def size : TTree → Nat
  | .node _ cs => 1 + sizeList cs
where
  sizeList : List TTree → Nat
    | [] => 0
    | t :: ts => size t + sizeList ts

theorem size_pos (t : TTree) : 0 < t.size := by
  cases t with
  | node d cs => simp only [size]; omega

theorem sizeList_eq (cs : List TTree) :
    size.sizeList cs = (cs.map size).sum := by
  induction cs with
  | nil => rfl
  | cons t ts ih => simp [size.sizeList, ih]

theorem size_lt_of_mem {t : TTree} {cs : List TTree} (h : t ∈ cs) {d : TNData} :
    t.size < (TTree.node d cs).size := by
  have : t.size ≤ size.sizeList cs := by
    induction cs with
    | nil => cases h
    | cons s ss ih =>
      rcases List.mem_cons.mp h with h | h
      · subst h; simp only [size.sizeList]
        have := size_pos t
        nlinarith [Nat.zero_le (size.sizeList ss)]
      · have := ih h
        simp only [size.sizeList]
        omega
  simp only [size]
  omega

/-- Strong induction principle for the nested inductive `TTree`. -/
theorem strongInd (P : TTree → Prop)
    (h : ∀ d cs, (∀ t ∈ cs, P t) → P (TTree.node d cs)) : ∀ t, P t := by
  have key : ∀ n t, TTree.size t ≤ n → P t := by
    intro n
    induction n with
    | zero => intro t hle; have := size_pos t; omega
    | succ n ih =>
      intro t hle
      cases t with
      | node d cs =>
        refine h d cs fun s hs => ih s ?_
        have := @size_lt_of_mem s cs hs d
        omega
  exact fun t => key t.size t le_rfl

end TTree

/-- Derivation rule of `EscapeModel.set_cover_status` (escape_model.py,
lines 205-212) for one non-leaf node: COVERED if all children COVERED,
UNCOVERED if all children UNCOVERED, MIXED otherwise. -/
def derive_cover (cs : List CoverStatus) : CoverStatus :=
  if ∀ c ∈ cs, c = CoverStatus.COVERED then CoverStatus.COVERED
  else if ∀ c ∈ cs, c = CoverStatus.UNCOVERED then CoverStatus.UNCOVERED
  else CoverStatus.MIXED

/-- `EscapeModel.set_cover_status` (escape_model.py): post-order traversal;
every non-leaf node's cover is recomputed from its (already updated)
children's covers; leaves are left untouched. -/
def set_cover_status : TTree → TTree
  | .node d cs =>
    match cs with
    | [] => .node d []
    | c :: rest =>
      let cs' := (c :: rest).attach.map (fun s => set_cover_status s.1)
      .node { d with cover := derive_cover (cs'.map (fun t => t.data.cover)) } cs'
termination_by t => t.size
decreasing_by
  exact TTree.size_lt_of_mem s.2

theorem set_cover_status_nil (d : TNData) :
    set_cover_status (.node d []) = .node d [] := by
  simp [set_cover_status]

theorem set_cover_status_cons (d : TNData) (c : TTree) (rest : List TTree) :
    set_cover_status (.node d (c :: rest)) =
      .node { d with
          cover := derive_cover (((c :: rest).map set_cover_status).map (fun t => t.data.cover)) }
        ((c :: rest).map set_cover_status) := by
  conv_lhs => rw [set_cover_status]
  simp [List.attach_map_coe]

/-- All subtrees of a tree (the tree itself included): every node of the
escape tree, with its children, as seen by a traversal. -/
def subtrees : TTree → List TTree
  | .node d cs => TTree.node d cs :: subtreesList cs
where
  subtreesList : List TTree → List TTree
    | [] => []
    | t :: ts => subtrees t ++ subtreesList ts

theorem subtreesList_eq (cs : List TTree) :
    subtrees.subtreesList cs = cs.flatMap subtrees := by
  induction cs with
  | nil => rfl
  | cons t ts ih => simp [subtrees.subtreesList, ih]

/-- The cover values at the leaves of a tree, in traversal order. -/
def leafCovers : TTree → List CoverStatus
  | .node d cs =>
    match cs with
    | [] => [d.cover]
    | c :: rest => leafCoversList (c :: rest)
where
  leafCoversList : List TTree → List CoverStatus
    | [] => []
    | t :: ts => leafCovers t ++ leafCoversList ts

theorem leafCoversList_eq (cs : List TTree) :
    leafCovers.leafCoversList cs = cs.flatMap leafCovers := by
  induction cs with
  | nil => rfl
  | cons t ts ih => simp [leafCovers.leafCoversList, ih]

theorem derive_cover_eq_covered (cs : List CoverStatus) :
    derive_cover cs = CoverStatus.COVERED ↔ ∀ c ∈ cs, c = CoverStatus.COVERED := by
  unfold derive_cover
  split_ifs with hC hU
  · simpa using hC
  · simp [hC]
  · simp [hC]

theorem derive_cover_eq_uncovered (cs : List CoverStatus) (hne : cs ≠ []) :
    derive_cover cs = CoverStatus.UNCOVERED ↔ ∀ c ∈ cs, c = CoverStatus.UNCOVERED := by
  unfold derive_cover
  split_ifs with hC hU
  · rcases cs with _ | ⟨c, rest⟩
    · exact absurd rfl hne
    · have h1 := hC c (by simp)
      constructor
      · intro h; cases h
      · intro h
        have h2 := h c (by simp)
        simp_all
  · simpa using hU
  · simp [hU]

theorem derive_cover_eq_mixed (cs : List CoverStatus) :
    derive_cover cs = CoverStatus.MIXED ↔
      ¬(∀ c ∈ cs, c = CoverStatus.COVERED) ∧ ¬(∀ c ∈ cs, c = CoverStatus.UNCOVERED) := by
  unfold derive_cover
  split_ifs with hC hU
  · constructor
    · intro h; cases h
    · intro ⟨h1, _⟩; exact absurd hC h1
  · constructor
    · intro h; cases h
    · intro ⟨_, h2⟩; exact absurd hU h2
  · simp [hC, hU]

theorem subtrees_def (d : TNData) (cs : List TTree) :
    subtrees (.node d cs) = TTree.node d cs :: cs.flatMap subtrees := by
  rw [subtrees, subtreesList_eq]

theorem cover_iffs_of_derive (cs' : List TTree) (hne : cs' ≠ []) (cov : CoverStatus)
    (hcov : cov = derive_cover (cs'.map (fun t => t.data.cover))) :
    (cov = CoverStatus.COVERED ↔ ∀ c ∈ cs', c.data.cover = CoverStatus.COVERED) ∧
    (cov = CoverStatus.UNCOVERED ↔ ∀ c ∈ cs', c.data.cover = CoverStatus.UNCOVERED) ∧
    (cov = CoverStatus.MIXED ↔
      ¬(∀ c ∈ cs', c.data.cover = CoverStatus.COVERED) ∧
      ¬(∀ c ∈ cs', c.data.cover = CoverStatus.UNCOVERED)) := by
  subst hcov
  have hmapne : cs'.map (fun t => t.data.cover) ≠ [] := by simpa using hne
  refine ⟨?_, ?_, ?_⟩
  · rw [derive_cover_eq_covered]
    constructor
    · intro h c hc
      exact h _ (List.mem_map_of_mem _ hc)
    · intro h x hx
      obtain ⟨c, hc, rfl⟩ := List.mem_map.mp hx
      exact h c hc
  · rw [derive_cover_eq_uncovered _ hmapne]
    constructor
    · intro h c hc
      exact h _ (List.mem_map_of_mem _ hc)
    · intro h x hx
      obtain ⟨c, hc, rfl⟩ := List.mem_map.mp hx
      exact h c hc
  · rw [derive_cover_eq_mixed]
    constructor
    · intro ⟨h1, h2⟩
      refine ⟨fun hall => h1 ?_, fun hall => h2 ?_⟩ <;>
        · intro x hx
          obtain ⟨c, hc, rfl⟩ := List.mem_map.mp hx
          exact hall c hc
    · intro ⟨h1, h2⟩
      refine ⟨fun hall => h1 ?_, fun hall => h2 ?_⟩ <;>
        · intro c hc
          exact hall _ (List.mem_map_of_mem _ hc)

theorem leafCovers_node (d : TNData) (c : TTree) (rest : List TTree) :
    leafCovers (.node d (c :: rest)) = (c :: rest).flatMap leafCovers := by
  rw [leafCovers, leafCoversList_eq]

/-- C6: After `set_cover_status` runs on any escape tree (whatever covers
the nodes held before), every non-leaf node's cover is COVERED iff all its
children's covers are COVERED, UNCOVERED iff all are UNCOVERED, MIXED
otherwise; and the covers at the leaves are unchanged. -/
theorem set_cover_status_correct (t : TTree) :
    (∀ t' ∈ subtrees (set_cover_status t), t'.children ≠ [] →
      ((t'.data.cover = CoverStatus.COVERED ↔
          ∀ c ∈ t'.children, c.data.cover = CoverStatus.COVERED) ∧
       (t'.data.cover = CoverStatus.UNCOVERED ↔
          ∀ c ∈ t'.children, c.data.cover = CoverStatus.UNCOVERED) ∧
       (t'.data.cover = CoverStatus.MIXED ↔
          ¬(∀ c ∈ t'.children, c.data.cover = CoverStatus.COVERED) ∧
          ¬(∀ c ∈ t'.children, c.data.cover = CoverStatus.UNCOVERED)))) ∧
    leafCovers (set_cover_status t) = leafCovers t := by
  induction t using TTree.strongInd with
  | _ d cs ih =>
    rcases cs with _ | ⟨c, rest⟩
    · rw [set_cover_status_nil]
      constructor
      · intro t' ht' hne
        rw [subtrees_def] at ht'
        simp only [List.flatMap_nil, List.mem_singleton] at ht'
        subst ht'
        simp [TTree.children] at hne
      · rfl
    · rw [set_cover_status_cons]
      have hcs'ne : (c :: rest).map set_cover_status ≠ [] := by simp
      constructor
      · intro t' ht' hne
        rw [subtrees_def, List.mem_cons] at ht'
        rcases ht' with ht' | ht'
        · subst ht'
          simp only [TTree.children, TTree.data]
          exact cover_iffs_of_derive _ hcs'ne _ rfl
        · rw [List.mem_flatMap] at ht'
          obtain ⟨s, hs, hts⟩ := ht'
          rw [List.mem_map] at hs
          obtain ⟨s0, hs0, rfl⟩ := hs
          exact (ih s0 hs0).1 t' hts hne
      · rw [List.map_cons, leafCovers_node, leafCovers_node, ← List.map_cons _ c rest,
          List.flatMap_map]
        refine List.flatMap_congr ?_
        intro s hs
        exact (ih s hs).2

/-- A concrete escape tree used to exercise `set_cover_status_correct`:
a root with one COVERED leaf and one UNCOVERED leaf. -/
def coverDemoTree : TTree :=
  .node ⟨0, -300, 0, false, false, CoverStatus.UNCOVERED⟩
    [.node ⟨1, 10, 80, true, false, CoverStatus.COVERED⟩ [],
     .node ⟨2, 20, 80, false, false, CoverStatus.UNCOVERED⟩ []]

/-- Witness for C6: on the concrete tree `coverDemoTree`, cover propagation
yields MIXED at the root (one COVERED child, one UNCOVERED child) and the
leaf covers are unchanged. -/
theorem set_cover_status_correct_witness :
    (set_cover_status coverDemoTree).data.cover = CoverStatus.MIXED ∧
    leafCovers (set_cover_status coverDemoTree) = leafCovers coverDemoTree := by
  have hres : set_cover_status coverDemoTree =
      .node ⟨0, -300, 0, false, false, CoverStatus.MIXED⟩
        [.node ⟨1, 10, 80, true, false, CoverStatus.COVERED⟩ [],
         .node ⟨2, 20, 80, false, false, CoverStatus.UNCOVERED⟩ []] := by
    rw [coverDemoTree, set_cover_status_cons]
    simp [set_cover_status_nil, derive_cover, TTree.data]
  refine ⟨?_, (set_cover_status_correct coverDemoTree).2⟩
  have h := (set_cover_status_correct coverDemoTree).1
      (set_cover_status coverDemoTree)
      (by rw [hres, subtrees_def]; exact List.mem_cons_self _ _)
      (by rw [hres]; simp [TTree.children])
  refine (h.2.2).mpr ?_
  rw [hres]
  simp only [TTree.children, TTree.data]
  constructor
  · intro hall
    have := hall (.node ⟨2, 20, 80, false, false, CoverStatus.UNCOVERED⟩ []) (by simp)
    simp [TTree.data] at this
  · intro hall
    have := hall (.node ⟨1, 10, 80, true, false, CoverStatus.COVERED⟩ []) (by simp)
    simp [TTree.data] at this

/-! ## Planner  (planner.py) -/

instance exceptDecEq {ε α : Type} [DecidableEq ε] [DecidableEq α] :
    DecidableEq (Except ε α) := fun a b =>
  match a, b with
  | .ok x, .ok y =>
    if h : x = y then .isTrue (by rw [h]) else .isFalse (fun hc => by cases hc; exact h rfl)
  | .error x, .error y =>
    if h : x = y then .isTrue (by rw [h]) else .isFalse (fun hc => by cases hc; exact h rfl)
  | .ok _, .error _ => .isFalse (fun hc => by cases hc)
  | .error _, .ok _ => .isFalse (fun hc => by cases hc)

/-- `MAX_SPEED_M_PER_SECOND` (config.py): 80 km/h in m/s. -/
def MAX_SPEED_M_PER_SECOND : ℚ := 80000 / 3600

/-- The planner-relevant data of a `Vehicle` (vehicle.py): its id, and the
geodesic distance `distance(lk_point, vehicle.point)` (utils.py) from the
adversary's LKP to the vehicle, carried here as a precomputed input. -/
structure VehicleIn where
  vid : Int
  dist_to_lkp : ℚ
deriving DecidableEq, Repr

/-- `VehicleAssignment` (vehicle.py): the planning fields; the destination
point and trajectory geometry are derived visual data, not modelled. -/
structure VehicleAssignment where
  vid : Int
  destination_node : Int
  time_to_dest : ℤ
  adv_time_to_dest : ℚ
  score : ℤ
deriving DecidableEq, Repr

/-- `Plan` (planner.py lines 208-225).  `Plan.__init__(nb)` gives
`⟨[], 0, nb⟩`. -/
structure Plan where
  assignments : List VehicleAssignment
  solution_score : ℚ
  nb_assignable_vehicles : Nat
deriving DecidableEq, Repr

/-- The vehicle pre-filter of `Planner.plan_interception` (planner.py lines
78-92).  For each vehicle `approx_adv_speed = dist_to_lkp / time_elapsed`
is evaluated unguarded, so Python raises ZeroDivisionError when
`time_elapsed == 0` and the list is non-empty (modelled as `Except.error`).
A vehicle with `approx_adv_speed < MAX_SPEED_M_PER_SECOND` is marked
TOO_CLOSE_TO_LKP and dropped; the others survive, in order. -/
def pre_filter (time_elapsed : ℤ) (vehicles : List VehicleIn) :
    Except String (List VehicleIn) :=
  match vehicles with
  | [] => .ok []
  | v :: rest =>
    if time_elapsed = 0 then .error "ZeroDivisionError: division by zero"
    else
      let approx_adv_speed := v.dist_to_lkp / (time_elapsed : ℚ)
      match pre_filter time_elapsed rest with
      | .error e => .error e
      | .ok survivors =>
        if approx_adv_speed < MAX_SPEED_M_PER_SECOND then .ok survivors
        else .ok (v :: survivors)

/-- `Planner.plan_interception` (planner.py lines 57-205): run the
pre-filter; if no vehicle survives return `Plan(0)` (lines 94-98);
otherwise build and solve the CP-SAT model — that stage, external to the
claims below, is abstracted as the `solve_stage` argument. -/
def plan_interception (time_elapsed : ℤ) (vehicles : List VehicleIn)
    (solve_stage : List VehicleIn → Except String Plan) : Except String Plan :=
  match pre_filter time_elapsed vehicles with
  | .error e => .error e
  | .ok assignable =>
    if assignable.length = 0 then .ok ⟨[], 0, 0⟩
    else solve_stage assignable

/-- `CandidateNode` (escape_model.py): `(id, osmid, time_reached, score)`;
the sequential id is the index in the (id-sorted) `candidate_nodes` list. -/
structure CandidateNode where
  osmid : Int
  time_reached : ℚ
  score : ℤ
deriving DecidableEq, Repr

/-- Decision-variable structure of the CP model (planner.py lines 124-133):
`x[v][n]` is a fresh boolean variable iff
`adv_times_to_nodes[n] - times_v_n[v][n] - time_margin > 0`; otherwise it
is `model.NewConstant(0)`. -/
def var_is_free (adv_times_to_nodes : List ℚ) (times_v_n : List (List ℤ))
    (time_margin : ℤ) (v n : Nat) : Bool :=
  decide (adv_times_to_nodes.getD n 0 - (((times_v_n.getD v []).getD n 0 : ℤ) : ℚ)
    - (time_margin : ℚ) > 0)

/-- A CP-SAT solution of the model: any boolean matrix in which every
variable fixed to the constant 0 indeed has value 0. -/
def SolutionRespectsModel (adv_times_to_nodes : List ℚ) (times_v_n : List (List ℤ))
    (time_margin : ℤ) (num_vehicles num_nodes : Nat) (x : Nat → Nat → Bool) : Prop :=
  ∀ v ∈ List.range num_vehicles, ∀ n ∈ List.range num_nodes,
    x v n = true → var_is_free adv_times_to_nodes times_v_n time_margin v n = true

instance (adv : List ℚ) (tvn : List (List ℤ)) (m : ℤ) (nv nn : Nat) (x : Nat → Nat → Bool) :
    Decidable (SolutionRespectsModel adv tvn m nv nn x) := by
  unfold SolutionRespectsModel; infer_instance

/-- Post-processing of `plan_interception` (planner.py lines 169-196): for
each assignable vehicle `v_i`, the first candidate `n_j` with
`x[v_i][n_j] = 1` (the inner loop breaks after one) becomes a
`VehicleAssignment` with the vehicle's travel time `times_v_n[v_i][n_j]`,
the adversary's time `adv_times_to_nodes[n_j]` and the node's score. -/
def build_assignments (assignable_vids : List Int) (candidate_nodes : List CandidateNode)
    (times_v_n : List (List ℤ)) (x : Nat → Nat → Bool) : List VehicleAssignment :=
  (List.range times_v_n.length).filterMap fun v =>
    ((List.range (times_v_n.getD 0 []).length).find? fun n => x v n).map fun n =>
      { vid := assignable_vids.getD v 0
        destination_node := (candidate_nodes.getD n ⟨0, 0, 0⟩).osmid
        time_to_dest := (times_v_n.getD v []).getD n 0
        adv_time_to_dest := (candidate_nodes.getD n ⟨0, 0, 0⟩).time_reached
        score := (candidate_nodes.getD n ⟨0, 0, 0⟩).score }

theorem getD_map_time_reached (cands : List CandidateNode) (n : Nat) :
    (cands.map (fun c => c.time_reached)).getD n 0 =
      (cands.getD n ⟨0, 0, 0⟩).time_reached := by
  by_cases h : n < cands.length
  · rw [List.getD_eq_getElem _ _ (by simpa using h), List.getD_eq_getElem _ _ h]
    simp
  · rw [List.getD_eq_default _ _ (by simpa using Nat.le_of_not_lt h),
      List.getD_eq_default _ _ (Nat.le_of_not_lt h)]

/-- C7: in the CP model, `x[v][n]` is fixed to the constant 0 exactly when
`adv_time_reached[n] - vehicle_time[v][n] - time_margin ≤ 0`; consequently
every `VehicleAssignment` extracted from any solution of the model
satisfies `adv_time_to_dest - time_to_dest ≥ time_margin`. -/
theorem plan_assignments_respect_time_margin
    (assignable_vids : List Int) (cands : List CandidateNode)
    (times_v_n : List (List ℤ)) (time_margin : ℤ) (x : Nat → Nat → Bool)
    (hsol : SolutionRespectsModel (cands.map (fun c => c.time_reached)) times_v_n
        time_margin times_v_n.length (times_v_n.getD 0 []).length x) :
    (∀ v n, var_is_free (cands.map (fun c => c.time_reached)) times_v_n time_margin v n
        = false ↔
      (cands.map (fun c => c.time_reached)).getD n 0
        - (((times_v_n.getD v []).getD n 0 : ℤ) : ℚ) - (time_margin : ℚ) ≤ 0) ∧
    ∀ va ∈ build_assignments assignable_vids cands times_v_n x,
      va.adv_time_to_dest - (va.time_to_dest : ℚ) ≥ (time_margin : ℚ) := by
  constructor
  · intro v n
    unfold var_is_free
    simp [not_lt]
  · intro va hva
    unfold build_assignments at hva
    rw [List.mem_filterMap] at hva
    obtain ⟨v, hv, hfind⟩ := hva
    rw [Option.map_eq_some'] at hfind
    obtain ⟨n, hn, rfl⟩ := hfind
    have hxvn : x v n = true := List.find?_some hn
    have hnmem : n ∈ List.range (times_v_n.getD 0 []).length :=
      List.mem_of_find?_eq_some hn
    have hfree := hsol v hv n hnmem hxvn
    unfold var_is_free at hfree
    rw [decide_eq_true_eq] at hfree
    rw [getD_map_time_reached] at hfree
    simp only
    linarith

/-- Witness for C7: a single vehicle and a single candidate node with
`adv_time_reached = 500`, `vehicle_time = 100`, `time_margin = 30`; the
solution assigns the vehicle there, and the extracted assignment keeps the
margin. -/
theorem plan_assignments_respect_time_margin_witness :
    SolutionRespectsModel (([⟨100, 500, 80⟩] : List CandidateNode).map (fun c => c.time_reached))
      [[100]] 30 1 1 (fun v n => decide (v = 0 ∧ n = 0)) ∧
    ∀ va ∈ build_assignments [8646] [⟨100, 500, 80⟩] [[100]] (fun v n => decide (v = 0 ∧ n = 0)),
      va.adv_time_to_dest - (va.time_to_dest : ℚ) ≥ (30 : ℚ) := by
  have hsol : SolutionRespectsModel
      (([⟨100, 500, 80⟩] : List CandidateNode).map (fun c => c.time_reached))
      [[100]] 30 1 1 (fun v n => decide (v = 0 ∧ n = 0)) := by
    intro v hv n hn _
    simp only [List.mem_range, Nat.lt_one_iff] at hv hn
    subst hv; subst hn
    unfold var_is_free
    norm_num
  refine ⟨hsol, ?_⟩
  exact (plan_assignments_respect_time_margin [8646] [⟨100, 500, 80⟩] [[100]] 30
      (fun v n => decide (v = 0 ∧ n = 0)) hsol).2

/-- C8: whenever the pre-filter completes with no surviving vehicle,
`plan_interception` returns successfully with a plan having zero
assignments and `solution_score = 0` (and the pre-filter always completes
on the empty vehicle list, with no survivors). -/
theorem plan_interception_empty_ok (time_elapsed : ℤ) (vehicles : List VehicleIn)
    (solve_stage : List VehicleIn → Except String Plan)
    (h : pre_filter time_elapsed vehicles = .ok []) :
    plan_interception time_elapsed vehicles solve_stage =
      .ok { assignments := [], solution_score := 0, nb_assignable_vehicles := 0 } ∧
    pre_filter time_elapsed [] = .ok [] := by
  constructor
  · unfold plan_interception
    rw [h]
    rfl
  · rfl

/-- Witness for C8: with `time_elapsed = 100` a single vehicle 10 m from
the LKP is dropped by the pre-filter (0.1 m/s < 22.2 m/s) and the planner
returns an empty zero-score plan. -/
theorem plan_interception_empty_ok_witness :
    plan_interception 100 [⟨1, 10⟩] (fun _ => .error "unused") =
      .ok { assignments := [], solution_score := 0, nb_assignable_vehicles := 0 } :=
  (plan_interception_empty_ok 100 [⟨1, 10⟩] (fun _ => .error "unused")
    (by unfold pre_filter; norm_num [MAX_SPEED_M_PER_SECOND]; rfl)).1

/-- C10: with `time_elapsed = 0` and a non-empty vehicle list the
pre-filter evaluates `dist_to_lkp / time_elapsed` and raises
ZeroDivisionError, which `plan_interception` propagates; with
`time_elapsed > 0` the pre-filter always completes. -/
theorem pre_filter_division_by_zero (time_elapsed : ℤ) (vehicles : List VehicleIn)
    (solve_stage : List VehicleIn → Except String Plan) :
    (time_elapsed = 0 → vehicles ≠ [] →
      plan_interception time_elapsed vehicles solve_stage =
        .error "ZeroDivisionError: division by zero") ∧
    (0 < time_elapsed → ∃ l, pre_filter time_elapsed vehicles = .ok l) := by
  constructor
  · intro hte hne
    subst hte
    rcases vehicles with _ | ⟨v, rest⟩
    · exact absurd rfl hne
    · unfold plan_interception pre_filter
      rfl
  · intro hpos
    have hne : time_elapsed ≠ 0 := by omega
    induction vehicles with
    | nil => exact ⟨[], rfl⟩
    | cons v rest ih =>
      obtain ⟨l, hl⟩ := ih
      unfold pre_filter
      rw [if_neg hne, hl]
      by_cases hsp : v.dist_to_lkp / (time_elapsed : ℚ) < MAX_SPEED_M_PER_SECOND
      · exact ⟨l, by simp [hsp]⟩
      · exact ⟨v :: l, by simp [hsp]⟩

/-- Witness for C10: one vehicle, `time_elapsed = 0` errors;
`time_elapsed = 5` completes. -/
theorem pre_filter_division_by_zero_witness :
    plan_interception 0 [⟨1, 10⟩] (fun _ => .error "unused") =
      .error "ZeroDivisionError: division by zero" ∧
    ∃ l, pre_filter 5 [⟨1, 10⟩] = .ok l := by
  constructor
  · exact (pre_filter_division_by_zero 0 [⟨1, 10⟩] (fun _ => .error "unused")).1 rfl
      (by simp)
  · exact (pre_filter_division_by_zero 5 [⟨1, 10⟩] (fun _ => .error "unused")).2 (by norm_num)

/-! ## Road network and routing  (road_network.py) -/

/-- One directed edge of the `MultiDiGraph`, with the attributes the
routing layer reads: `travel_time` (seconds), the `oneway` string tag
("yes" for one-way edges), and the highway rank as already converted by
`edge_quantifier` (0-6). -/
structure Edge where
  u : Int
  v : Int
  travel_time : ℚ
  oneway : String
  hw_rank : ℤ
deriving DecidableEq, Repr

/-- A graph node with its geographic coordinate (x = lng, y = lat). -/
structure GNode where
  nid : Int
  x : ℚ
  y : ℚ
deriving DecidableEq, Repr

/-- `RoadNetwork` (road_network.py): nodes and edges in insertion order
(`get_edge_data(u, v, 0)` is the first stored parallel edge; `successors`
iterates adjacency in insertion order) and the escape-node set.  Edge
geometry is the straight segment between the endpoint coordinates, i.e.
the geometry `get_edge_as_linestring` synthesizes when none is stored. -/
structure RoadNetwork where
  nodes : List GNode
  edges : List Edge
  escape_nodes : List Int
deriving DecidableEq, Repr

/-- `Position` (position.py): a location on the graph, on edge `(u, v)` at
fractional offset `ec ∈ [0, 1]` along the edge. -/
structure Position where
  u : Int
  v : Int
  ec : ℚ
deriving DecidableEq, Repr

namespace RoadNetwork

/-- `graph.get_edge_data(u, v, 0)`: the first stored (u, v) edge. -/
def get_edge_data (g : RoadNetwork) (u v : Int) : Option Edge :=
  g.edges.find? (fun e => e.u == u && e.v == v)

/-- `get_edge_travel_time` (road_network.py lines 392-402). -/
def get_edge_travel_time (g : RoadNetwork) (u v : Int) : Option ℚ :=
  (g.get_edge_data u v).map (fun e => e.travel_time)

/-- `get_edge_hw_as_int` (road_network.py lines 372-390), after
`edge_quantifier` conversion of the stored highway tag. -/
def get_edge_hw_as_int (g : RoadNetwork) (u v : Int) : Option ℤ :=
  (g.get_edge_data u v).map (fun e => e.hw_rank)

end RoadNetwork

/-- The weight function used by networkx Dijkstra on a `MultiDiGraph`: the
minimum `travel_time` over the parallel `(u, v)` edges of the (possibly
filtered) edge list, when any. -/
def edge_weight (edges : List Edge) (u v : Int) : Option ℚ :=
  ((edges.filter (fun e => e.u == u && e.v == v)).map (fun e => e.travel_time)).min?

/-- Distinct successors of `u` in the edge list, in insertion order. -/
def successors (edges : List Edge) (u : Int) : List Int :=
  ((edges.filter (fun e => e.u == u)).map (fun e => e.v)).dedup

/-- Sum of edge weights along a node sequence (total travel time of a
path). -/
def path_weight (edges : List Edge) : List Int → ℚ
  | [] => 0
  | [_] => 0
  | a :: b :: rest => (edge_weight edges a b).getD 0 + path_weight edges (b :: rest)

/-- An entry of the Dijkstra result: distance and path for one node. -/
structure DEntry where
  node : Int
  dist : ℚ
  path : List Int
deriving DecidableEq, Repr

/-- Heap pop of networkx Dijkstra: the frontier entry with minimal
distance (first one wins ties). -/
def pop_min (frontier : List DEntry) : Option DEntry :=
  frontier.foldl (fun acc e =>
    match acc with
    | none => some e
    | some m => if e.dist < m.dist then some e else some m) none

/-- Main loop of networkx `single_source_dijkstra`: pop the closest
frontier node, finalize it, relax its out-edges.  `fuel` bounds the number
of iterations (one node is finalized per iteration). -/
def dijkstra_loop (edges : List Edge) : Nat → List DEntry → List DEntry → List DEntry
  | 0, final, _ => final
  | fuel + 1, final, frontier =>
    match pop_min frontier with
    | none => final
    | some m =>
      dijkstra_loop edges fuel (final ++ [m])
        (frontier.filter (fun e => e.node != m.node) ++
          (successors edges m.node).filterMap (fun v =>
            if (final ++ [m]).any (fun f => f.node == v) then none
            else (edge_weight edges m.node v).map
              (fun w => DEntry.mk v (m.dist + w) (m.path ++ [v]))))

/-- `single_source_dijkstra(graph, source, weight="travel_time")`
(networkx), over an explicit (possibly filtered) edge list: one entry with
distance and path per reachable node; the path of the source is
`[source]`. -/
def single_source_dijkstra (edges : List Edge) (source : Int) : List DEntry :=
  dijkstra_loop edges (edges.length + 1) [] [DEntry.mk source 0 [source]]

/-- `effective_edges` (road_network.py lines 257-268): when `ens_as_sink`,
operate on the subgraph view that drops every edge whose source is an
escape node. -/
def effective_edges (g : RoadNetwork) (ens_as_sink : Bool) : List Edge :=
  if ens_as_sink then g.edges.filter (fun e => !(g.escape_nodes.contains e.u)) else g.edges

/-- `subgraph_view(_graph, filter_edge=lambda u, v, k: (u, v) != (a, b))`
(road_network.py lines 300-315): drop the single directed edge `(a, b)`. -/
def avoid_edge (edges : List Edge) (a b : Int) : List Edge :=
  edges.filter (fun e => !(e.u == a && e.v == b))

/-- The u-side Dijkstra run of the bidirectional case (road_network.py
lines 296-308): from `pos.u` over the view without the starting edge. -/
def from_u_side (eff_edges : List Edge) (pos : Position) : List DEntry :=
  single_source_dijkstra (avoid_edge eff_edges pos.u pos.v) pos.u

/-- The v-side Dijkstra run of the bidirectional case (road_network.py
lines 310-319): from `pos.v` over the view without the reverse edge. -/
def from_v_side (eff_edges : List Edge) (pos : Position) : List DEntry :=
  single_source_dijkstra (avoid_edge eff_edges pos.v pos.u) pos.v

/-- `all_reachable = set(times_from_u) | set(times_from_v)`
(road_network.py line 322): every node reached by either Dijkstra side. -/
def merged_nodes (eff_edges : List Edge) (pos : Position) : List Int :=
  ((from_u_side eff_edges pos).map (fun en => en.node)
    ++ (from_v_side eff_edges pos).map (fun en => en.node)).dedup

/-- `times_from_u.get(node, float("inf")) + offset` (road_network.py line
328): the distance to `n` on one Dijkstra side plus the fractional-edge
offset, `none` meaning +∞. -/
def time_via (side : List DEntry) (offset : ℚ) (n : Int) : Option ℚ :=
  (side.find? (fun en => en.node == n)).map (fun en => en.dist + offset)

/-- `<` over `float("inf")`-defaulted values (road_network.py line 333). -/
def lt_inf : Option ℚ → Option ℚ → Bool
  | some a, some b => decide (a < b)
  | some _, none => true
  | none, _ => false

/-- `min(time_via_u, time_via_v)` over `float("inf")`-defaulted values
(road_network.py line 332); the merge only evaluates it on nodes reachable
from at least one side, so the none/none case does not occur. -/
def min_inf : Option ℚ → Option ℚ → ℚ
  | some a, some b => min a b
  | some a, none => a
  | none, some b => b
  | none, none => 0

/-- Result of a routing query: per-node times and paths, as association
lists (Python dicts keyed by node osmid). -/
structure RouteResult where
  times : List (Int × ℚ)
  paths : List (Int × List Int)
deriving DecidableEq, Repr

/-- `RoadNetwork.get_times_and_paths_from_position` after snapping
(road_network.py lines 275-335): check the starting edge is in the
effective graph view, then run Dijkstra — once from `v` for a one-way
starting edge, twice (avoiding the starting edge and its reverse) for a
two-way one, merging per node by minimum time, v-side path on ties. -/
def route_from_position (g : RoadNetwork) (eff_edges : List Edge) (pos : Position)
    (time_elapsed : ℚ) : Except String RouteResult :=
  match eff_edges.find? (fun e => e.u == pos.u && e.v == pos.v) with
  | none => .error "Edge not found in graph view"
  | some ed_view =>
    match g.get_edge_travel_time pos.u pos.v with
    | none => .error "GraphInconsistency: edge missing from graph"
    | some tt =>
      if ed_view.oneway == "yes" then
        .ok ⟨(single_source_dijkstra eff_edges pos.v).map
              (fun en => (en.node, en.dist + tt * (1 - pos.ec) - time_elapsed)),
             (single_source_dijkstra eff_edges pos.v).map (fun en => (en.node, en.path))⟩
      else
        .ok ⟨(merged_nodes eff_edges pos).map (fun n =>
              (n, min_inf (time_via (from_u_side eff_edges pos) (tt * pos.ec) n)
                    (time_via (from_v_side eff_edges pos) (tt * (1 - pos.ec)) n)
                  - time_elapsed)),
             (merged_nodes eff_edges pos).map (fun n =>
              (n, if lt_inf (time_via (from_u_side eff_edges pos) (tt * pos.ec) n)
                    (time_via (from_v_side eff_edges pos) (tt * (1 - pos.ec)) n)
                  then (((from_u_side eff_edges pos).find? (fun en => en.node == n)).map
                    (fun en => en.path)).getD []
                  else (((from_v_side eff_edges pos).find? (fun en => en.node == n)).map
                    (fun en => en.path)).getD []))⟩

/-! ### Dijkstra invariants -/

/-- Well-formedness of a Dijkstra entry: its path starts at the source,
ends at the entry's node, and the recorded distance is the total weight of
its path. -/
def entry_ok (edges : List Edge) (source : Int) (en : DEntry) : Prop :=
  en.path.head? = some source ∧ en.path.getLast? = some en.node ∧
  en.dist = path_weight edges en.path

theorem edge_weight_getD_nonneg (edges : List Edge)
    (hw : ∀ e ∈ edges, 0 ≤ e.travel_time) (u v : Int) :
    0 ≤ (edge_weight edges u v).getD 0 := by
  unfold edge_weight
  cases hmin : ((edges.filter (fun e => e.u == u && e.v == v)).map
      (fun e => e.travel_time)).min? with
  | none => simp
  | some w =>
    have hmem := List.min?_mem (by intro a b; exact min_choice a b) hmin
    rw [List.mem_map] at hmem
    obtain ⟨e, he, rfl⟩ := hmem
    simpa using hw e (List.mem_of_mem_filter he)

theorem path_weight_nonneg (edges : List Edge)
    (hw : ∀ e ∈ edges, 0 ≤ e.travel_time) : ∀ p, 0 ≤ path_weight edges p := by
  intro p
  induction p with
  | nil => simp [path_weight]
  | cons a tail ih =>
    cases tail with
    | nil => simp [path_weight]
    | cons b rest =>
      simp only [path_weight]
      have h1 := edge_weight_getD_nonneg edges hw a b
      linarith

theorem path_weight_append (edges : List Edge) (v : Int) :
    ∀ (p : List Int) (a : Int), p.getLast? = some a →
      path_weight edges (p ++ [v]) = path_weight edges p + (edge_weight edges a v).getD 0 := by
  intro p
  induction p with
  | nil => intro a h; cases h
  | cons x tail ih =>
    intro a h
    cases tail with
    | nil =>
      have hx : x = a := by simpa using h
      subst hx
      simp [path_weight]
    | cons y rest =>
      have h' : (y :: rest).getLast? = some a := by
        rwa [List.getLast?_cons_cons] at h
      have hih := ih a h'
      simp only [List.cons_append] at hih ⊢
      simp only [path_weight]
      rw [hih]
      ring

theorem pop_min_mem (l : List DEntry) (m : DEntry) (h : pop_min l = some m) : m ∈ l := by
  have key : ∀ (l' : List DEntry) (acc : Option DEntry) (m' : DEntry),
      l'.foldl (fun acc e => match acc with
        | none => some e
        | some mm => if e.dist < mm.dist then some e else some mm) acc = some m' →
      m' ∈ l' ∨ acc = some m' := by
    intro l'
    induction l' with
    | nil => intro acc m' h'; right; exact h'
    | cons x tail ih =>
      intro acc m' h'
      rw [List.foldl_cons] at h'
      rcases ih _ m' h' with h1 | h1
      · left; exact List.mem_cons_of_mem _ h1
      · cases acc with
        | none =>
          left
          have : x = m' := by simpa using h1
          rw [this]; exact List.mem_cons_self _ _
        | some mm =>
          dsimp only at h1
          by_cases hd : x.dist < mm.dist
          · rw [if_pos hd] at h1
            left
            have : x = m' := by simpa using h1
            rw [this]; exact List.mem_cons_self _ _
          · rw [if_neg hd] at h1
            right; exact h1
  unfold pop_min at h
  rcases key l none m h with h1 | h1
  · exact h1
  · cases h1

theorem dijkstra_loop_ok (edges : List Edge) (source : Int) :
    ∀ (fuel : Nat) (final frontier : List DEntry),
      (∀ en ∈ final, entry_ok edges source en) →
      (∀ en ∈ frontier, entry_ok edges source en) →
      ∀ en ∈ dijkstra_loop edges fuel final frontier, entry_ok edges source en := by
  intro fuel
  induction fuel with
  | zero =>
    intro final frontier hf _ en hen
    rw [dijkstra_loop] at hen
    exact hf en hen
  | succ fuel ih =>
    intro final frontier hf hfr en hen
    rw [dijkstra_loop] at hen
    cases hpop : pop_min frontier with
    | none => rw [hpop] at hen; exact hf en hen
    | some m =>
      rw [hpop] at hen
      have hm := hfr m (pop_min_mem frontier m hpop)
      refine ih _ _ ?_ ?_ en hen
      · intro e he
        rcases List.mem_append.mp he with he | he
        · exact hf e he
        · rw [List.mem_singleton] at he; subst he; exact hm
      · intro e he
        rcases List.mem_append.mp he with he | he
        · exact hfr e (List.mem_of_mem_filter he)
        · rw [List.mem_filterMap] at he
          obtain ⟨v, _, hsome⟩ := he
          by_cases hfin : (final ++ [m]).any (fun f => f.node == v)
          · rw [if_pos hfin] at hsome; cases hsome
          · rw [if_neg hfin] at hsome
            rw [Option.map_eq_some'] at hsome
            obtain ⟨w, hwmem, rfl⟩ := hsome
            obtain ⟨hhead, hlast, hdist⟩ := hm
            have hne : m.path ≠ [] := by
              intro hc; rw [hc] at hhead; cases hhead
            refine ⟨?_, ?_, ?_⟩
            · simpa [List.head?_append_of_ne_nil _ hne] using hhead
            · exact List.getLast?_concat m.path
            · simp only
              rw [path_weight_append edges v m.path m.node hlast, ← hdist, hwmem]
              simp

theorem single_source_dijkstra_ok (edges : List Edge) (source : Int) :
    ∀ en ∈ single_source_dijkstra edges source, entry_ok edges source en := by
  unfold single_source_dijkstra
  refine dijkstra_loop_ok edges source _ [] _ (by intro en hen; cases hen) ?_
  intro en hen
  rw [List.mem_singleton] at hen
  subst hen
  exact ⟨rfl, rfl, rfl⟩

theorem single_source_dijkstra_dist_nonneg (edges : List Edge) (source : Int)
    (hw : ∀ e ∈ edges, 0 ≤ e.travel_time) :
    ∀ en ∈ single_source_dijkstra edges source, 0 ≤ en.dist := by
  intro en hen
  rw [(single_source_dijkstra_ok edges source en hen).2.2]
  exact path_weight_nonneg edges hw en.path

/-! ### Association-list facts for the merge -/

theorem lookup_map_eq {α : Type} (f : Int → α) (l : List Int) (k : Int) (t : α)
    (h : (l.map (fun n => (n, f n))).lookup k = some t) : k ∈ l ∧ t = f k := by
  induction l with
  | nil => cases h
  | cons a tail ih =>
    rw [List.map_cons, List.lookup] at h
    cases hk : (k == a) with
    | true =>
      rw [hk] at h
      dsimp only at h
      have hka : k = a := by simpa using hk
      have hta : t = f a := by simpa using h.symm
      exact ⟨by rw [hka]; exact List.mem_cons_self _ _, by rw [hta, hka]⟩
    | false =>
      rw [hk] at h
      dsimp only at h
      obtain ⟨hmem, ht⟩ := ih h
      exact ⟨List.mem_cons_of_mem _ hmem, ht⟩

theorem lookup_map_self {α : Type} (f : Int → α) (l : List Int) (k : Int) (hk : k ∈ l) :
    (l.map (fun n => (n, f n))).lookup k = some (f k) := by
  induction l with
  | nil => cases hk
  | cons a tail ih =>
    rw [List.map_cons, List.lookup]
    cases hka : (k == a) with
    | true =>
      dsimp only
      have : k = a := by simpa using hka
      rw [this]
    | false =>
      dsimp only
      refine ih ?_
      rcases List.mem_cons.mp hk with h | h
      · exact absurd (by simpa using h) (by simpa using hka)
      · exact h

theorem find?_node_of_mem (side : List DEntry) (n : Int)
    (h : n ∈ side.map (fun en => en.node)) :
    ∃ en, side.find? (fun e => e.node == n) = some en ∧ en.node = n := by
  have hsome : (side.find? (fun e => e.node == n)).isSome := by
    rw [List.find?_isSome]
    rw [List.mem_map] at h
    obtain ⟨en, hmem, hn⟩ := h
    exact ⟨en, hmem, by simp [hn]⟩
  obtain ⟨en, hen⟩ := Option.isSome_iff_exists.mp hsome
  refine ⟨en, hen, ?_⟩
  simpa using List.find?_some hen

theorem time_via_nonneg (side : List DEntry) (off : ℚ) (n : Int) (a : ℚ)
    (hd : ∀ en ∈ side, 0 ≤ en.dist) (hoff : 0 ≤ off)
    (h : time_via side off n = some a) : 0 ≤ a := by
  unfold time_via at h
  rw [Option.map_eq_some'] at h
  obtain ⟨en, hen, rfl⟩ := h
  have := hd en (List.mem_of_find?_eq_some hen)
  linarith

theorem time_via_isSome (side : List DEntry) (off : ℚ) (n : Int)
    (h : n ∈ side.map (fun en => en.node)) :
    ∃ a, time_via side off n = some a := by
  obtain ⟨en, hen, -⟩ := find?_node_of_mem side n h
  exact ⟨en.dist + off, by unfold time_via; rw [hen]; rfl⟩

/-- The shape of the two-way routing result (road_network.py lines
291-335): per-node merged times and tie-broken paths over the nodes
reachable from either endpoint. -/
theorem route_from_position_two_way_eq
    (g : RoadNetwork) (eff_edges : List Edge) (pos : Position) (te : ℚ)
    (res : RouteResult) (tt : ℚ) (ed : Edge)
    (hfind : eff_edges.find? (fun e => e.u == pos.u && e.v == pos.v) = some ed)
    (htt : g.get_edge_travel_time pos.u pos.v = some tt)
    (hnyes : ed.oneway ≠ "yes")
    (hok : route_from_position g eff_edges pos te = .ok res) :
    res.times = (merged_nodes eff_edges pos).map (fun n =>
        (n, min_inf (time_via (from_u_side eff_edges pos) (tt * pos.ec) n)
              (time_via (from_v_side eff_edges pos) (tt * (1 - pos.ec)) n) - te)) ∧
    res.paths = (merged_nodes eff_edges pos).map (fun n =>
        (n, if lt_inf (time_via (from_u_side eff_edges pos) (tt * pos.ec) n)
              (time_via (from_v_side eff_edges pos) (tt * (1 - pos.ec)) n)
            then (((from_u_side eff_edges pos).find? (fun en => en.node == n)).map
              (fun en => en.path)).getD []
            else (((from_v_side eff_edges pos).find? (fun en => en.node == n)).map
              (fun en => en.path)).getD [])) := by
  unfold route_from_position at hok
  rw [hfind, htt] at hok
  dsimp only at hok
  rw [if_neg (by simpa using hnyes)] at hok
  injection hok with h
  subst h
  exact ⟨rfl, rfl⟩

/-- C1: for a routing query from a position on a two-way edge (nonnegative
travel times, `ec ∈ [0, 1]`): for each node `n` in the result, `times[n]`
is the minimum of `dijkstra_time_from_u[n] + time_to_u` and
`dijkstra_time_from_v[n] + time_to_v` minus `time_elapsed` (a missing side
counting as +∞), with `time_to_u = tt·ec` and `time_to_v = tt·(1-ec)`;
hence `times[n] ≥ -time_elapsed`; and `times[n]` equals the sum of
`travel_time` over the edges of `paths[n]` plus the fractional-edge time
from the starting position to the path's first endpoint, minus
`time_elapsed`. -/
theorem route_from_position_two_way_correct
    (g : RoadNetwork) (eff_edges : List Edge) (pos : Position) (te : ℚ)
    (res : RouteResult) (tt : ℚ) (ed : Edge)
    (hgw : ∀ e ∈ g.edges, 0 ≤ e.travel_time)
    (hw : ∀ e ∈ eff_edges, 0 ≤ e.travel_time)
    (hfind : eff_edges.find? (fun e => e.u == pos.u && e.v == pos.v) = some ed)
    (htt : g.get_edge_travel_time pos.u pos.v = some tt)
    (hnyes : ed.oneway ≠ "yes")
    (hec0 : 0 ≤ pos.ec) (hec1 : pos.ec ≤ 1)
    (hok : route_from_position g eff_edges pos te = .ok res) :
    ∀ n t, res.times.lookup n = some t →
      (t = min_inf (time_via (from_u_side eff_edges pos) (tt * pos.ec) n)
            (time_via (from_v_side eff_edges pos) (tt * (1 - pos.ec)) n) - te) ∧
      -te ≤ t ∧
      (∃ p, res.paths.lookup n = some p ∧ p ≠ [] ∧ p.getLast? = some n ∧
        ((p.head? = some pos.u ∧
           t = path_weight (avoid_edge eff_edges pos.u pos.v) p + tt * pos.ec - te) ∨
         (p.head? = some pos.v ∧
           t = path_weight (avoid_edge eff_edges pos.v pos.u) p + tt * (1 - pos.ec) - te))) := by
  obtain ⟨htimes, hpaths⟩ :=
    route_from_position_two_way_eq g eff_edges pos te res tt ed hfind htt hnyes hok
  have htt0 : 0 ≤ tt := by
    unfold RoadNetwork.get_edge_travel_time RoadNetwork.get_edge_data at htt
    rw [Option.map_eq_some'] at htt
    obtain ⟨e, he, rfl⟩ := htt
    exact hgw e (List.mem_of_find?_eq_some he)
  have hwu : ∀ e ∈ avoid_edge eff_edges pos.u pos.v, 0 ≤ e.travel_time :=
    fun e he => hw e (List.mem_of_mem_filter he)
  have hwv : ∀ e ∈ avoid_edge eff_edges pos.v pos.u, 0 ≤ e.travel_time :=
    fun e he => hw e (List.mem_of_mem_filter he)
  have hdu : ∀ en ∈ from_u_side eff_edges pos, 0 ≤ en.dist :=
    single_source_dijkstra_dist_nonneg _ _ hwu
  have hdv : ∀ en ∈ from_v_side eff_edges pos, 0 ≤ en.dist :=
    single_source_dijkstra_dist_nonneg _ _ hwv
  have httu : 0 ≤ tt * pos.ec := mul_nonneg htt0 hec0
  have httv : 0 ≤ tt * (1 - pos.ec) := mul_nonneg htt0 (by linarith)
  intro n t hlk
  rw [htimes] at hlk
  obtain ⟨hmem, ht⟩ := lookup_map_eq _ _ _ _ hlk
  have hside : n ∈ (from_u_side eff_edges pos).map (fun en => en.node) ∨
      n ∈ (from_v_side eff_edges pos).map (fun en => en.node) := by
    unfold merged_nodes at hmem
    exact List.mem_append.mp (List.mem_dedup.mp hmem)
  refine ⟨ht, ?_, ?_⟩
  · -- -te ≤ t
    rw [ht]
    have hnn : 0 ≤ min_inf (time_via (from_u_side eff_edges pos) (tt * pos.ec) n)
        (time_via (from_v_side eff_edges pos) (tt * (1 - pos.ec)) n) := by
      cases hA : time_via (from_u_side eff_edges pos) (tt * pos.ec) n with
      | none =>
        cases hB : time_via (from_v_side eff_edges pos) (tt * (1 - pos.ec)) n with
        | none =>
          rcases hside with hs | hs
          · obtain ⟨a, ha⟩ := time_via_isSome _ (tt * pos.ec) _ hs
            rw [ha] at hA; cases hA
          · obtain ⟨b, hb⟩ := time_via_isSome _ (tt * (1 - pos.ec)) _ hs
            rw [hb] at hB; cases hB
        | some b =>
          have := time_via_nonneg _ _ _ _ hdv httv hB
          simpa [min_inf] using this
      | some a =>
        have ha0 := time_via_nonneg _ _ _ _ hdu httu hA
        cases hB : time_via (from_v_side eff_edges pos) (tt * (1 - pos.ec)) n with
        | none => simpa [min_inf] using ha0
        | some b =>
          have hb0 := time_via_nonneg _ _ _ _ hdv httv hB
          simp only [min_inf]
          exact le_min ha0 hb0
    linarith
  · -- path characterisation
    rw [hpaths, lookup_map_self _ _ _ hmem]
    refine ⟨_, rfl, ?_⟩
    cases hA : time_via (from_u_side eff_edges pos) (tt * pos.ec) n with
    | some a =>
      -- u-side entry
      have hA' := hA
      unfold time_via at hA'
      rw [Option.map_eq_some'] at hA'
      obtain ⟨enU, henU, ha⟩ := hA'
      obtain ⟨hhU, hlU, hdU⟩ := single_source_dijkstra_ok _ _ enU
        (List.mem_of_find?_eq_some henU)
      have hnU : enU.node = n := by simpa using List.find?_some henU
      have hneU : enU.path ≠ [] := by
        intro hc; rw [hc] at hhU; cases hhU
      cases hB : time_via (from_v_side eff_edges pos) (tt * (1 - pos.ec)) n with
      | none =>
        rw [if_pos (by simp [lt_inf])]
        rw [henU]
        simp only [Option.map_some', Option.getD_some]
        refine ⟨hneU, by rw [hlU, hnU], Or.inl ⟨hhU, ?_⟩⟩
        rw [ht, hA, hB]
        simp only [min_inf]
        rw [← ha, hdU]
      | some b =>
        have hB' := hB
        unfold time_via at hB'
        rw [Option.map_eq_some'] at hB'
        obtain ⟨enV, henV, hb⟩ := hB'
        obtain ⟨hhV, hlV, hdV⟩ := single_source_dijkstra_ok _ _ enV
          (List.mem_of_find?_eq_some henV)
        have hnV : enV.node = n := by simpa using List.find?_some henV
        have hneV : enV.path ≠ [] := by
          intro hc; rw [hc] at hhV; cases hhV
        by_cases hab : a < b
        · rw [if_pos (by simp [lt_inf, hab])]
          rw [henU]
          simp only [Option.map_some', Option.getD_some]
          refine ⟨hneU, by rw [hlU, hnU], Or.inl ⟨hhU, ?_⟩⟩
          rw [ht, hA, hB]
          simp only [min_inf]
          rw [min_eq_left (le_of_lt hab), ← ha, hdU]
        · rw [if_neg (by simp [lt_inf, hab])]
          rw [henV]
          simp only [Option.map_some', Option.getD_some]
          refine ⟨hneV, by rw [hlV, hnV], Or.inr ⟨hhV, ?_⟩⟩
          rw [ht, hA, hB]
          simp only [min_inf]
          rw [min_eq_right (not_lt.mp hab), ← hb, hdV]
    | none =>
      cases hB : time_via (from_v_side eff_edges pos) (tt * (1 - pos.ec)) n with
      | none =>
        rcases hside with hs | hs
        · obtain ⟨a, ha⟩ := time_via_isSome _ (tt * pos.ec) _ hs
          rw [ha] at hA; cases hA
        · obtain ⟨b, hb⟩ := time_via_isSome _ (tt * (1 - pos.ec)) _ hs
          rw [hb] at hB; cases hB
      | some b =>
        have hB' := hB
        unfold time_via at hB'
        rw [Option.map_eq_some'] at hB'
        obtain ⟨enV, henV, hb⟩ := hB'
        obtain ⟨hhV, hlV, hdV⟩ := single_source_dijkstra_ok _ _ enV
          (List.mem_of_find?_eq_some henV)
        have hnV : enV.node = n := by simpa using List.find?_some henV
        have hneV : enV.path ≠ [] := by
          intro hc; rw [hc] at hhV; cases hhV
        rw [if_neg (by simp [lt_inf])]
        rw [henV]
        simp only [Option.map_some', Option.getD_some]
        refine ⟨hneV, by rw [hlV, hnV], Or.inr ⟨hhV, ?_⟩⟩
        rw [ht, hA, hB]
        simp only [min_inf]
        rw [← hb, hdV]

/-- A concrete network for the bidirectional-routing claims: a two-way
edge (1, 2) of travel time 10 and one-way shortcuts 1→3 and 2→3 of travel
time 5 each; from the midpoint of (1, 2), node 3 is reached at the same
time via both endpoints. -/
def tieDemoNet : RoadNetwork :=
  ⟨[], [⟨1, 2, 10, "no", 1⟩, ⟨2, 1, 10, "no", 1⟩, ⟨1, 3, 5, "no", 1⟩, ⟨2, 3, 5, "no", 1⟩], []⟩

/-- Witness for C1: the concrete two-way query on `tieDemoNet` from
`ec = 1/2` with `time_elapsed = 100`, with the conclusion instantiated on
its computed result. -/
theorem route_from_position_two_way_correct_witness :
    route_from_position tieDemoNet tieDemoNet.edges ⟨1, 2, 1/2⟩ 100 =
      .ok ⟨[(1, -95), (2, -95), (3, -90)], [(1, [1]), (2, [2]), (3, [2, 3])]⟩ ∧
    ∀ n t,
      (RouteResult.mk [(1, -95), (2, -95), (3, -90)]
          [(1, [1]), (2, [2]), (3, [2, 3])]).times.lookup n = some t →
      (t = min_inf (time_via (from_u_side tieDemoNet.edges ⟨1, 2, 1/2⟩) (10 * (1/2 : ℚ)) n)
            (time_via (from_v_side tieDemoNet.edges ⟨1, 2, 1/2⟩) (10 * (1 - (1/2 : ℚ))) n)
          - 100) ∧
      -(100 : ℚ) ≤ t ∧
      (∃ p, (RouteResult.mk [(1, -95), (2, -95), (3, -90)]
              [(1, [1]), (2, [2]), (3, [2, 3])]).paths.lookup n = some p ∧ p ≠ [] ∧
          p.getLast? = some n ∧
        ((p.head? = some 1 ∧
           t = path_weight (avoid_edge tieDemoNet.edges 1 2) p + 10 * (1/2 : ℚ) - 100) ∨
         (p.head? = some 2 ∧
           t = path_weight (avoid_edge tieDemoNet.edges 2 1) p + 10 * (1 - (1/2 : ℚ)) - 100))) := by
  have hok : route_from_position tieDemoNet tieDemoNet.edges ⟨1, 2, 1/2⟩ 100 =
      .ok ⟨[(1, -95), (2, -95), (3, -90)], [(1, [1]), (2, [2]), (3, [2, 3])]⟩ := by
    norm_num [route_from_position, single_source_dijkstra, dijkstra_loop, pop_min, successors,
      edge_weight, avoid_edge, tieDemoNet, from_u_side, from_v_side, merged_nodes, time_via,
      lt_inf, min_inf, RoadNetwork.get_edge_travel_time, RoadNetwork.get_edge_data,
      List.filter, List.filterMap, List.foldl, List.dedup, List.min?, Option.map, List.any,
      List.map, Except.map, (by decide : ¬ (("no" : String) = "yes"))]
  refine ⟨hok, ?_⟩
  intro n t hlk
  exact route_from_position_two_way_correct tieDemoNet tieDemoNet.edges ⟨1, 2, 1/2⟩ 100
    _ 10 ⟨1, 2, 10, "no", 1⟩ (by decide) (by decide) (by decide) (by decide) (by decide)
    (by norm_num) (by norm_num) hok n t hlk

/-- C3 counterexample: on `tieDemoNet`, node 3 is a time tie between the
two endpoints (10 s via each), yet `get_times_and_paths_from_position`
returns the route found via `v` ([2, 3]), not the route found via `u`
([1, 3]) as the claim states. -/
theorem route_tie_break_counterexample :
    (route_from_position tieDemoNet tieDemoNet.edges ⟨1, 2, 1/2⟩ 0).map
        (fun r => r.paths.lookup 3) = .ok (some [2, 3]) ∧
    time_via (from_u_side tieDemoNet.edges ⟨1, 2, 1/2⟩) (10 * (1/2 : ℚ)) 3 = some 10 ∧
    time_via (from_v_side tieDemoNet.edges ⟨1, 2, 1/2⟩) (10 * (1 - (1/2 : ℚ))) 3 = some 10 ∧
    (from_u_side tieDemoNet.edges ⟨1, 2, 1/2⟩).find? (fun en => en.node == 3) =
      some ⟨3, 5, [1, 3]⟩ ∧
    ([2, 3] : List Int) ≠ [1, 3] := by
  refine ⟨?_, ?_, ?_, ?_, by simp⟩ <;>
    norm_num [route_from_position, single_source_dijkstra, dijkstra_loop, pop_min, successors,
      edge_weight, avoid_edge, tieDemoNet, from_u_side, from_v_side, merged_nodes, time_via,
      lt_inf, min_inf, RoadNetwork.get_edge_travel_time, RoadNetwork.get_edge_data,
      List.filter, List.filterMap, List.foldl, List.dedup, List.min?, Option.map, List.any,
      List.map, Except.map, (by decide : ¬ (("no" : String) = "yes"))]
  decide

/-- C3 amended: in the bidirectional case, whenever the travel time via
endpoint u equals the travel time via endpoint v for some node n, the
returned path for n is the route found via `v` (the code's comparison
`time_via_u < time_via_v` is strict, so ties fall to the v-side). -/
theorem route_tie_prefers_v_route
    (g : RoadNetwork) (eff_edges : List Edge) (pos : Position) (te : ℚ)
    (res : RouteResult) (tt : ℚ) (ed : Edge)
    (hfind : eff_edges.find? (fun e => e.u == pos.u && e.v == pos.v) = some ed)
    (htt : g.get_edge_travel_time pos.u pos.v = some tt)
    (hnyes : ed.oneway ≠ "yes")
    (hok : route_from_position g eff_edges pos te = .ok res) :
    ∀ n a b,
      time_via (from_u_side eff_edges pos) (tt * pos.ec) n = some a →
      time_via (from_v_side eff_edges pos) (tt * (1 - pos.ec)) n = some b →
      a = b →
      ∃ enV, (from_v_side eff_edges pos).find? (fun en => en.node == n) = some enV ∧
        res.paths.lookup n = some enV.path := by
  obtain ⟨-, hpaths⟩ :=
    route_from_position_two_way_eq g eff_edges pos te res tt ed hfind htt hnyes hok
  intro n a b hA hB hab
  have hBf := hB
  unfold time_via at hBf
  rw [Option.map_eq_some'] at hBf
  obtain ⟨enV, henV, -⟩ := hBf
  have hmem : n ∈ merged_nodes eff_edges pos := by
    unfold merged_nodes
    rw [List.mem_dedup, List.mem_append]
    right
    rw [List.mem_map]
    exact ⟨enV, List.mem_of_find?_eq_some henV, by simpa using List.find?_some henV⟩
  refine ⟨enV, henV, ?_⟩
  rw [hpaths, lookup_map_self _ _ _ hmem]
  rw [hA, hB]
  subst hab
  rw [if_neg (by simp [lt_inf])]
  rw [henV]
  rfl

/-- Witness for the amended C3: the tie at node 3 on `tieDemoNet` returns
exactly the v-side Dijkstra path [2, 3]. -/
theorem route_tie_prefers_v_route_witness :
    (from_v_side tieDemoNet.edges ⟨1, 2, 1/2⟩).find? (fun en => en.node == 3) =
      some (DEntry.mk 3 5 [2, 3]) ∧
    (RouteResult.mk [(1, 5), (2, 5), (3, 10)]
        [(1, [1]), (2, [2]), (3, [2, 3])]).paths.lookup 3 = some [2, 3] := by
  have hok : route_from_position tieDemoNet tieDemoNet.edges ⟨1, 2, 1/2⟩ 0 =
      .ok ⟨[(1, 5), (2, 5), (3, 10)], [(1, [1]), (2, [2]), (3, [2, 3])]⟩ := by
    norm_num [route_from_position, single_source_dijkstra, dijkstra_loop, pop_min, successors,
      edge_weight, avoid_edge, tieDemoNet, from_u_side, from_v_side, merged_nodes, time_via,
      lt_inf, min_inf, RoadNetwork.get_edge_travel_time, RoadNetwork.get_edge_data,
      List.filter, List.filterMap, List.foldl, List.dedup, List.min?, Option.map, List.any,
      List.map, Except.map, (by decide : ¬ (("no" : String) = "yes"))]
  have hfv : (from_v_side tieDemoNet.edges ⟨1, 2, 1/2⟩).find? (fun en => en.node == 3) =
      some (DEntry.mk 3 5 [2, 3]) := by
    norm_num [route_from_position, single_source_dijkstra, dijkstra_loop, pop_min, successors,
      edge_weight, avoid_edge, tieDemoNet, from_u_side, from_v_side, merged_nodes, time_via,
      lt_inf, min_inf, RoadNetwork.get_edge_travel_time, RoadNetwork.get_edge_data,
      List.filter, List.filterMap, List.foldl, List.dedup, List.min?, Option.map, List.any,
      List.map, Except.map, (by decide : ¬ (("no" : String) = "yes"))]
  obtain ⟨enV, h1, h2⟩ := route_tie_prefers_v_route tieDemoNet tieDemoNet.edges ⟨1, 2, 1/2⟩ 0
    _ 10 ⟨1, 2, 10, "no", 1⟩ (by decide) (by decide) (by decide) hok 3 10 10
    (by norm_num [route_from_position, single_source_dijkstra, dijkstra_loop, pop_min, successors,
      edge_weight, avoid_edge, tieDemoNet, from_u_side, from_v_side, merged_nodes, time_via,
      lt_inf, min_inf, RoadNetwork.get_edge_travel_time, RoadNetwork.get_edge_data,
      List.filter, List.filterMap, List.foldl, List.dedup, List.min?, Option.map, List.any,
      List.map, Except.map, (by decide : ¬ (("no" : String) = "yes"))]) (by norm_num [route_from_position, single_source_dijkstra, dijkstra_loop, pop_min, successors,
      edge_weight, avoid_edge, tieDemoNet, from_u_side, from_v_side, merged_nodes, time_via,
      lt_inf, min_inf, RoadNetwork.get_edge_travel_time, RoadNetwork.get_edge_data,
      List.filter, List.filterMap, List.foldl, List.dedup, List.min?, Option.map, List.any,
      List.map, Except.map, (by decide : ¬ (("no" : String) = "yes"))]) rfl
  have henv : enV = DEntry.mk 3 5 [2, 3] := by
    rw [hfv] at h1
    exact (Option.some.inj h1).symm
  subst henv
  exact ⟨hfv, h2⟩

/-! ## Snapping  (road_network.py, `create_position_from_point`) -/

/-- Squared Euclidean distance between two coordinates. -/
def sq_dist (p q : ℚ × ℚ) : ℚ := (p.1 - q.1)^2 + (p.2 - q.2)^2

/-- Fold step of the nearest-node search: keep the nearer of the
accumulator and the next node (the first one on ties). -/
def nearer_node (p : ℚ × ℚ) (acc : Option GNode) (nd : GNode) : Option GNode :=
  match acc with
  | none => some nd
  | some m => if sq_dist (nd.x, nd.y) p < sq_dist (m.x, m.y) p then some nd else some m

/-- `osmnx.distance.nearest_nodes` over the graph's node table. -/
def nearest_node (g : RoadNetwork) (p : ℚ × ℚ) : Option Int :=
  (g.nodes.foldl (nearer_node p) none).map (fun nd => nd.nid)

/-- Coordinates of a node, (0, 0) when absent --- lookups in the claims
below are on present nodes. -/
def node_xy (g : RoadNetwork) (nid : Int) : ℚ × ℚ :=
  match g.nodes.find? (fun nd => nd.nid == nid) with
  | some nd => (nd.x, nd.y)
  | none => (0, 0)

/-- Normalized projection parameter of `p` on segment (a, b), clamped to
[0, 1]: shapely's `edge_geom.project(point, normalized=True)` for the
straight-segment geometry. -/
def seg_param (a b p : ℚ × ℚ) : ℚ :=
  if (b.1 - a.1) ^ 2 + (b.2 - a.2) ^ 2 = 0 then 0
  else min 1 (max 0 (((p.1 - a.1) * (b.1 - a.1) + (p.2 - a.2) * (b.2 - a.2))
    / ((b.1 - a.1) ^ 2 + (b.2 - a.2) ^ 2)))

/-- Squared distance from `p` to segment (a, b). -/
def seg_sq_dist (a b p : ℚ × ℚ) : ℚ :=
  sq_dist (a.1 + seg_param a b p * (b.1 - a.1), a.2 + seg_param a b p * (b.2 - a.2)) p

/-- Fold step of the nearest-edge search over a given edge list. -/
def nearer_edge (g : RoadNetwork) (p : ℚ × ℚ) (acc : Option Edge) (e : Edge) : Option Edge :=
  match acc with
  | none => some e
  | some m =>
    if seg_sq_dist (node_xy g e.u) (node_xy g e.v) p
        < seg_sq_dist (node_xy g m.u) (node_xy g m.v) p then some e else some m

/-- `osmnx.distance.nearest_edges` restricted to an edge list (the full
graph in the code; the effective view in the spec's description). -/
def nearest_edge_in (g : RoadNetwork) (edges : List Edge) (p : ℚ × ℚ) : Option Edge :=
  edges.foldl (nearer_edge g p) none

/-- `RoadNetwork.create_position_from_point` (road_network.py lines
103-147).  `on_node = true`: snap to the nearest node `u`, take
`next(self.graph.successors(u))` as `v`, `ec = 0`; ValueError when `u`
has no successor.  `on_node = false`: snap to the nearest edge of the
FULL graph and project the point onto its geometry. -/
def create_position_from_point (g : RoadNetwork) (p : ℚ × ℚ) (on_node : Bool) :
    Except String Position :=
  if on_node then
    match nearest_node g p with
    | none => .error "nearest_nodes failed: empty graph"
    | some u =>
      match g.edges.find? (fun e => e.u == u) with
      | some e => .ok ⟨u, e.v, 0⟩
      | none => .error "ValueError: node has no outgoing edges"
  else
    match nearest_edge_in g g.edges p with
    | none => .error "nearest_edges failed: empty graph"
    | some e => .ok ⟨e.u, e.v, seg_param (node_xy g e.u) (node_xy g e.v) p⟩

/-- `RoadNetwork.get_times_and_paths_from_position` (road_network.py lines
227-335), the full pipeline: build the effective (possibly sink-filtered)
view, snap the input point --- on the FULL graph, as the code does --- and
route from the snapped position over the view. -/
def get_times_and_paths_from_position (g : RoadNetwork) (p : ℚ × ℚ) (time_elapsed : ℚ)
    (ens_as_sink : Bool) : Except String (Position × RouteResult) :=
  match create_position_from_point g p false with
  | .error e => .error e
  | .ok pos =>
    match route_from_position g (effective_edges g ens_as_sink) pos time_elapsed with
    | .error e => .error e
    | .ok r => .ok (pos, r)

/-- Modelled from the spec: "Snap `p` to the nearest edge in the effective
graph (this matters when the sink filter removed the nearest edge
otherwise)".  The code comment at road_network.py lines 270-272 states the
same intent, but the implementation calls `create_position_from_point`,
which searches `self.graph` --- this definition performs the snap the spec
describes, over the effective edge list. -/
def create_position_on_effective (g : RoadNetwork) (eff_edges : List Edge) (p : ℚ × ℚ) :
    Except String Position :=
  match nearest_edge_in g eff_edges p with
  | none => .error "nearest_edges failed: empty graph"
  | some e => .ok ⟨e.u, e.v, seg_param (node_xy g e.u) (node_xy g e.v) p⟩

theorem foldl_nearer_isSome {α : Type} (step : Option α → α → Option α)
    (hstep : ∀ m x, (step (some m) x).isSome)
    (hnone : ∀ x, step none x = some x) :
    ∀ (l : List α) (acc : Option α), (acc.isSome ∨ l ≠ []) → (l.foldl step acc).isSome := by
  intro l
  induction l with
  | nil =>
    intro acc h
    rcases h with h | h
    · simpa using h
    · exact absurd rfl h
  | cons x xs ih =>
    intro acc h
    rw [List.foldl_cons]
    cases acc with
    | none =>
      rw [hnone]
      exact ih (some x) (Or.inl rfl)
    | some m =>
      obtain ⟨y, hy⟩ := Option.isSome_iff_exists.mp (hstep m x)
      rw [hy]
      exact ih (some y) (Or.inl rfl)

theorem nearest_node_isSome (g : RoadNetwork) (p : ℚ × ℚ) (h : g.nodes ≠ []) :
    ∃ u, nearest_node g p = some u := by
  have := foldl_nearer_isSome (nearer_node p)
    (by intro m x; unfold nearer_node; dsimp only; split <;> simp)
    (by intro x; rfl) g.nodes none (Or.inr h)
  obtain ⟨nd, hnd⟩ := Option.isSome_iff_exists.mp this
  exact ⟨nd.nid, by unfold nearest_node; rw [hnd]; rfl⟩

theorem nearest_edge_in_isSome (g : RoadNetwork) (edges : List Edge) (p : ℚ × ℚ)
    (h : edges ≠ []) : ∃ e, nearest_edge_in g edges p = some e := by
  have := foldl_nearer_isSome (nearer_edge g p)
    (by intro m x; unfold nearer_edge; dsimp only; split <;> simp)
    (by intro x; rfl) edges none (Or.inr h)
  exact Option.isSome_iff_exists.mp this

/-- C9 amended: snapping with `on_node = true` succeeds exactly when the
nearest node has at least one outgoing edge --- it then returns that node
with its first successor at `ec = 0` --- and raises ValueError otherwise,
even on a non-empty graph; on an empty graph the nearest-node search
fails.  Snapping with `on_node = false` succeeds whenever the edge list
is non-empty. -/
theorem create_position_from_point_cases (g : RoadNetwork) (p : ℚ × ℚ) :
    (g.nodes = [] →
      create_position_from_point g p true = .error "nearest_nodes failed: empty graph") ∧
    (g.nodes ≠ [] → ∃ u, nearest_node g p = some u) ∧
    (∀ u, nearest_node g p = some u →
      (∀ e, g.edges.find? (fun e => e.u == u) = some e →
        create_position_from_point g p true = .ok ⟨u, e.v, 0⟩) ∧
      (g.edges.find? (fun e => e.u == u) = none →
        create_position_from_point g p true =
          .error "ValueError: node has no outgoing edges")) ∧
    (g.edges ≠ [] → ∃ pos, create_position_from_point g p false = .ok pos) := by
  refine ⟨?_, ?_, ?_, ?_⟩
  · intro h
    unfold create_position_from_point nearest_node
    rw [h]
    rfl
  · exact fun h => nearest_node_isSome g p h
  · intro u hu
    constructor
    · intro e he
      unfold create_position_from_point
      rw [if_pos rfl, hu]
      dsimp only
      rw [he]
    · intro he
      unfold create_position_from_point
      rw [if_pos rfl, hu]
      dsimp only
      rw [he]
  · intro h
    obtain ⟨e, he⟩ := nearest_edge_in_isSome g g.edges p h
    refine ⟨⟨e.u, e.v, seg_param (node_xy g e.u) (node_xy g e.v) p⟩, ?_⟩
    unfold create_position_from_point
    rw [if_neg (by simp), he]

/-- A two-node, one-edge network 1 → 2; node 2 has no outgoing edge. -/
def noSuccNet : RoadNetwork :=
  ⟨[⟨1, 0, 0⟩, ⟨2, 10, 0⟩], [⟨1, 2, 10, "no", 1⟩], []⟩

/-- C9 counterexample: the graph `noSuccNet` is non-empty, yet snapping
the point (10, 0) with `on_node = true` fails, because the nearest node 2
has no outgoing edge.  This refutes "for every non-empty graph and every
input point, snapping with on_node=true succeeds". -/
theorem snap_on_node_counterexample :
    noSuccNet.nodes ≠ [] ∧
    create_position_from_point noSuccNet (10, 0) true =
      .error "ValueError: node has no outgoing edges" := by
  constructor
  · simp [noSuccNet]
  · norm_num [create_position_from_point, nearest_node, nearer_node, sq_dist, noSuccNet,
      List.foldl, Option.map, List.find?]
    decide

/-- Witness for the amended C9: on the same non-empty graph, snapping a
point nearest to node 1 (which has a successor) succeeds with ec = 0. -/
theorem create_position_from_point_cases_witness :
    create_position_from_point noSuccNet (0, 0) true = .ok ⟨1, 2, 0⟩ ∧
    noSuccNet.nodes ≠ [] := by
  have hnear : nearest_node noSuccNet (0, 0) = some 1 := by
    norm_num [nearest_node, nearer_node, sq_dist, noSuccNet, List.foldl, Option.map]
  refine ⟨?_, by simp [noSuccNet]⟩
  exact ((create_position_from_point_cases noSuccNet (0, 0)).2.2.1 1 hnear).1
    ⟨1, 2, 10, "no", 1⟩ (by decide)

/-- A network where the edge nearest to the query point leaves an escape
node: escape node 10 at (0,1) with edge 10 → 11, and a surviving two-way
edge pair 20 ↔ 21 five units away. -/
def sinkSnapNet : RoadNetwork :=
  ⟨[⟨10, 0, 1⟩, ⟨11, 2, 1⟩, ⟨20, 0, 5⟩, ⟨21, 1, 5⟩],
   [⟨10, 11, 5, "yes", 1⟩, ⟨20, 21, 5, "no", 1⟩, ⟨21, 20, 5, "no", 1⟩],
   [10]⟩

/-- C2 (code bug): with `ens_as_sink = true` the code snaps on the FULL
graph, so when the nearest edge's source is an escape node the query
raises `ValueError` instead of snapping to the nearest surviving edge.
On `sinkSnapNet` the pipeline errors on the point (1/2, 1) --- whose
full-graph nearest edge is the escape edge 10 → 11 --- while the snap the
spec (and the code's own comment at road_network.py lines 270-272)
describes, on the effective graph, succeeds and routes successfully. -/
theorem sink_snap_code_bug :
    get_times_and_paths_from_position sinkSnapNet (1/2, 1) 0 true =
      .error "Edge not found in graph view" ∧
    create_position_from_point sinkSnapNet (1/2, 1) false = .ok ⟨10, 11, 1/4⟩ ∧
    create_position_on_effective sinkSnapNet (effective_edges sinkSnapNet true) (1/2, 1) =
      .ok ⟨20, 21, 1/2⟩ ∧
    route_from_position sinkSnapNet (effective_edges sinkSnapNet true) ⟨20, 21, 1/2⟩ 0 =
      .ok ⟨[(20, 5/2), (21, 5/2)], [(20, [20]), (21, [21])]⟩ := by
  have hxy10 : node_xy sinkSnapNet 10 = (0, 1) := by simp [node_xy, sinkSnapNet]
  have hxy11 : node_xy sinkSnapNet 11 = (2, 1) := by simp [node_xy, sinkSnapNet]
  have hxy20 : node_xy sinkSnapNet 20 = (0, 5) := by simp [node_xy, sinkSnapNet]
  have hxy21 : node_xy sinkSnapNet 21 = (1, 5) := by simp [node_xy, sinkSnapNet]
  have hsp1 : seg_param (0, 1) (2, 1) (1/2, 1) = 1/4 := by
    norm_num [seg_param, min_def, max_def]
  have hsp2 : seg_param (0, 5) (1, 5) (1/2, 1) = 1/2 := by
    norm_num [seg_param, min_def, max_def]
  have hs1 : seg_sq_dist (0, 1) (2, 1) (1/2, 1) = 0 := by
    unfold seg_sq_dist
    rw [hsp1]
    norm_num [sq_dist]
  have hs2 : seg_sq_dist (0, 5) (1, 5) (1/2, 1) = 16 := by
    unfold seg_sq_dist
    rw [hsp2]
    norm_num [sq_dist]
  have hsp2r : seg_param (1, 5) (0, 5) (1/2, 1) = 1/2 := by
    norm_num [seg_param, min_def, max_def]
  have hs2r : seg_sq_dist (1, 5) (0, 5) (1/2, 1) = 16 := by
    unfold seg_sq_dist
    rw [hsp2r]
    norm_num [sq_dist]
  have hedges : sinkSnapNet.edges =
      [⟨10, 11, 5, "yes", 1⟩, ⟨20, 21, 5, "no", 1⟩, ⟨21, 20, 5, "no", 1⟩] := rfl
  have heff : effective_edges sinkSnapNet true =
      [⟨20, 21, 5, "no", 1⟩, ⟨21, 20, 5, "no", 1⟩] := by
    simp [effective_edges, sinkSnapNet]
  have hsnap : create_position_from_point sinkSnapNet (1/2, 1) false = .ok ⟨10, 11, 1/4⟩ := by
    unfold create_position_from_point
    rw [if_neg (by simp), hedges]
    simp only [nearest_edge_in, List.foldl, nearer_edge, hxy10, hxy11, hxy20, hxy21,
      hs1, hs2, hs2r, hsp1]
    norm_num [hxy10, hxy11, hxy20, hxy21, hs1, hs2, hs2r, hsp1, hsp2, hsp2r]
  have hsnapEff : create_position_on_effective sinkSnapNet
      (effective_edges sinkSnapNet true) (1/2, 1) = .ok ⟨20, 21, 1/2⟩ := by
    rw [heff]
    unfold create_position_on_effective
    simp only [nearest_edge_in, List.foldl, nearer_edge, hxy20, hxy21, hs2, hs2r, hsp2]
    norm_num [hxy10, hxy11, hxy20, hxy21, hs1, hs2, hs2r, hsp1, hsp2, hsp2r]
  have htt : RoadNetwork.get_edge_travel_time sinkSnapNet 20 21 = some 5 := by
    simp [RoadNetwork.get_edge_travel_time, RoadNetwork.get_edge_data, sinkSnapNet]
  have hroute : route_from_position sinkSnapNet (effective_edges sinkSnapNet true)
      ⟨20, 21, 1/2⟩ 0 = .ok ⟨[(20, 5/2), (21, 5/2)], [(20, [20]), (21, [21])]⟩ := by
    rw [heff]
    norm_num [route_from_position, htt, single_source_dijkstra, dijkstra_loop, pop_min,
      successors, edge_weight, avoid_edge, from_u_side, from_v_side, merged_nodes,
      time_via, lt_inf, min_inf, List.filter, List.filterMap, List.foldl, List.dedup,
      List.min?, Option.map, List.any, List.map,
      (by decide : ¬ (("no" : String) = "yes"))]
  refine ⟨?_, hsnap, hsnapEff, hroute⟩
  unfold get_times_and_paths_from_position
  rw [hsnap, heff]
  simp [route_from_position]

/-! ## Escape model scoring  (escape_model.py, config.py) -/

/-- `SCORE_LAST_EDGE_FACTOR` (config.py): 80. -/
def SCORE_LAST_EDGE_FACTOR : ℤ := 80

/-- `SCORE_TIME_FACTOR` (config.py): 480. -/
def SCORE_TIME_FACTOR : ℤ := 480

/-- `SCORE_TIME_CONSTANT` (config.py): 900 s. -/
def SCORE_TIME_CONSTANT : ℤ := 900

/-- Python's `int(x)` on a float: truncation toward zero. -/
noncomputable def pyInt (x : ℝ) : ℤ := if 0 ≤ x then ⌊x⌋ else ⌈x⌉

/-- The time-dependent scoring term of `build_lkp_rooted_tree`
(escape_model.py line 115):
`int(exp(-time_to_curr_osmid / SCORE_TIME_CONSTANT) * SCORE_TIME_FACTOR)`. -/
noncomputable def time_bonus (t : ℚ) : ℤ :=
  pyInt (Real.exp (-(t : ℝ) / (SCORE_TIME_CONSTANT : ℝ)) * (SCORE_TIME_FACTOR : ℝ))

/-- The score contribution of one node on one escape path (escape_model.py
lines 113-122): `en_score_value + int(exp(-t/900) * 480)` when the
adjusted time is positive, 0 otherwise. -/
noncomputable def score_contribution (base : ℤ) (t : ℚ) : ℤ :=
  if 0 < t then base + time_bonus t else 0

/-- The score contribution as the spec words it: the time-dependent term
rounded to the nearest integer,
`edge_score_base + round(exp(-t / 900) * 480)` for positive `t`.  Written
from the spec for comparison with `score_contribution` (the code). -/
noncomputable def score_contribution_spec (base : ℤ) (t : ℚ) : ℤ :=
  if 0 < t then base + round (Real.exp (-(t : ℝ) / 900) * 480) else 0

theorem time_bonus_bounds_half :
    (479 : ℝ) + 1/2 ≤ Real.exp (-((1/2 : ℚ) : ℝ) / 900) * 480 ∧
    Real.exp (-((1/2 : ℚ) : ℝ) / 900) * 480 < 480 := by
  have harg : -((1/2 : ℚ) : ℝ) / 900 = -(1/1800 : ℝ) := by norm_num
  rw [harg]
  constructor
  · have h := Real.add_one_le_exp (-(1/1800 : ℝ))
    nlinarith
  · have h : Real.exp (-(1/1800 : ℝ)) < 1 := by
      calc Real.exp (-(1/1800 : ℝ)) < Real.exp 0 := Real.exp_lt_exp.mpr (by norm_num)
        _ = 1 := Real.exp_zero
    nlinarith

/-- C4 counterexample: at adjusted time t = 1/2 s with edge-score base 80,
the code's contribution (Python `int()`, truncation) is 80 + 479 = 559,
while the claimed round-to-nearest formula gives 80 + 480 = 560. -/
theorem score_contribution_rounding_counterexample :
    score_contribution 80 (1/2) = 559 ∧
    score_contribution_spec 80 (1/2) = 560 ∧
    score_contribution 80 (1/2) ≠ score_contribution_spec 80 (1/2) := by
  obtain ⟨hlo, hhi⟩ := time_bonus_bounds_half
  set E : ℝ := Real.exp (-((1/2 : ℚ) : ℝ) / 900) * 480 with hE
  have hpos : (0 : ℝ) ≤ E := by rw [hE]; positivity
  have hfloor : ⌊E⌋ = 479 :=
    Int.floor_eq_iff.mpr ⟨by push_cast; linarith, by push_cast; linarith⟩
  have hround : round E = 480 := by
    rw [round_eq]
    exact Int.floor_eq_iff.mpr ⟨by push_cast; linarith, by push_cast; linarith⟩
  have harg : Real.exp (-((1/2 : ℚ) : ℝ) / ((SCORE_TIME_CONSTANT : ℤ) : ℝ))
      * ((SCORE_TIME_FACTOR : ℤ) : ℝ) = E := by
    rw [hE]
    norm_num [SCORE_TIME_CONSTANT, SCORE_TIME_FACTOR]
  have htb : time_bonus (1/2) = 479 := by
    unfold time_bonus
    rw [harg]
    unfold pyInt
    rw [if_pos hpos, hfloor]
  have h1 : score_contribution 80 (1/2) = 559 := by
    unfold score_contribution
    rw [if_pos (by norm_num : (0 : ℚ) < 1/2), htb]
    decide
  have h2 : score_contribution_spec 80 (1/2) = 560 := by
    unfold score_contribution_spec
    rw [if_pos (by norm_num : (0 : ℚ) < 1/2), ← hE, hround]
    decide
  exact ⟨h1, h2, by rw [h1, h2]; decide⟩

/-- C4 amended: during escape-tree construction, for a node with adjusted
time t > 0 the score contribution equals
`edge_score_base + ⌊exp(-t / 900) * 480⌋` --- the time-dependent term is
TRUNCATED toward zero by Python `int()` (equal to the floor here since the
term is positive), not rounded to nearest; for t ≤ 0 the contribution
is 0. -/
theorem score_contribution_eq_floor (base : ℤ) (t : ℚ) :
    (0 < t → score_contribution base t =
      base + ⌊Real.exp (-(t : ℝ) / 900) * 480⌋) ∧
    (t ≤ 0 → score_contribution base t = 0) := by
  constructor
  · intro ht
    have harg : Real.exp (-(t : ℝ) / ((SCORE_TIME_CONSTANT : ℤ) : ℝ))
        * ((SCORE_TIME_FACTOR : ℤ) : ℝ) = Real.exp (-(t : ℝ) / 900) * 480 := by
      norm_num [SCORE_TIME_CONSTANT, SCORE_TIME_FACTOR]
    unfold score_contribution time_bonus
    rw [if_pos ht, harg]
    unfold pyInt
    rw [if_pos (by positivity)]
  · intro ht
    unfold score_contribution
    rw [if_neg (not_lt.mpr ht)]

/-- Witness for the amended C4, at t = 1/2 (positive branch) and t = -3
(nonpositive branch). -/
theorem score_contribution_eq_floor_witness :
    score_contribution 80 (1/2) = 80 + ⌊Real.exp (-((1/2 : ℚ) : ℝ) / 900) * 480⌋ ∧
    score_contribution 80 (-3) = 0 :=
  ⟨(score_contribution_eq_floor 80 (1/2)).1 (by norm_num),
   (score_contribution_eq_floor 80 (-3)).2 (by norm_num)⟩

/-! ## Escape-tree construction  (escape_model.py, `build_lkp_rooted_tree`) -/

/-- A `TreeNode` as created by `build_lkp_rooted_tree` (tree_node.py):
the parent link is the parent's osmid (anytree stores the object; osmids
are unique keys of `tree_dict`).  `candidate_id` is `id`. -/
structure BTreeNode where
  parent : Option Int
  time_reached : ℚ
  score : ℤ
  is_njoi : Bool
  candidate_id : Option Nat

/-- The mutable state of the tree build: `self.tree_dict` (a Python dict,
insertion-ordered, unique keys) and `self._candidate_node_counter`. -/
structure BuildState where
  tree_dict : List (Int × BTreeNode)
  counter : Nat

/-- Python truthiness of the `njoi` variable at `if not njoi:`
(escape_model.py line 117): `None` and the osmid 0 are falsy. -/
def njoi_truthy : Option Int → Bool
  | none => false
  | some k => !(k == 0)

/-- `self.tree_dict[curr_osmid].score += score` (escape_model.py line
142). -/
def add_score (d : List (Int × BTreeNode)) (k : Int) (s : ℤ) : List (Int × BTreeNode) :=
  d.map (fun q => if q.1 == k then (q.1, { q.2 with score := q.2.score + s }) else q)

/-- One iteration of the `pairwise([None, 0, *path])` loop of
`build_lkp_rooted_tree` (escape_model.py lines 111-142), on the pair
`(prev, curr)` with walk state `(njoi, st)`.  Python `KeyError`s (a
missing time, a missing parent entry) are modelled as `none`. -/
noncomputable def walk_step (times : List (Int × ℚ)) (base : ℤ)
    (acc : Option Int × BuildState) (pc : Option Int × Int) :
    Option (Option Int × BuildState) :=
  match times.lookup pc.2 with
  | none => none
  | some t =>
    let score := score_contribution base t
    let njoi := if 0 < t ∧ njoi_truthy acc.1 = false then some pc.2 else acc.1
    if (acc.2.tree_dict.lookup pc.2).isSome then
      some (njoi, ⟨add_score acc.2.tree_dict pc.2 score, acc.2.counter⟩)
    else
      match pc.1 with
      | none =>
        some (njoi, ⟨acc.2.tree_dict ++ [(pc.2,
            ⟨none, t, score, njoi == some pc.2,
             if 0 < score then some acc.2.counter else none⟩)],
          if 0 < score then acc.2.counter + 1 else acc.2.counter⟩)
      | some pr =>
        if (acc.2.tree_dict.lookup pr).isSome then
          some (njoi, ⟨acc.2.tree_dict ++ [(pc.2,
              ⟨some pr, t, score, njoi == some pc.2,
               if 0 < score then some acc.2.counter else none⟩)],
            if 0 < score then acc.2.counter + 1 else acc.2.counter⟩)
        else none

/-- Consecutive pairs `(some a, b)` along `a :: l`. -/
def pairsFrom (a : Int) : List Int → List (Option Int × Int)
  | [] => []
  | x :: xs => (some a, x) :: pairsFrom x xs

/-- `pairwise([None, 0, *path])` (escape_model.py line 111). -/
def walk_pairs (path : List Int) : List (Option Int × Int) :=
  (none, 0) :: pairsFrom 0 path

/-- The per-path base score (escape_model.py lines 99-106):
`get_edge_hw_as_int` of the last edge of the path times
`SCORE_LAST_EDGE_FACTOR`, or of the LKP's own edge when the path has at
most one node. -/
def en_score_value (g : RoadNetwork) (lkpu lkpv : Int) (path : List Int) : Option ℤ :=
  match path.reverse with
  | last :: prev :: _ => (g.get_edge_hw_as_int prev last).map (fun h => h * SCORE_LAST_EDGE_FACTOR)
  | _ => (g.get_edge_hw_as_int lkpu lkpv).map (fun h => h * SCORE_LAST_EDGE_FACTOR)

/-- `EscapeModel.build_lkp_rooted_tree` (escape_model.py lines 77-142):
set `times_to_nodes[0] = -time_elapsed` (modelled by consing the entry, so
lookups see it first), then for each escape node with a path, walk the
pairwise sequence `[None, 0, *path]`, creating tree nodes on first
encounter and accumulating scores on later ones.  `lkpu`/`lkpv` are the
endpoints of the snapped LKP edge. -/
noncomputable def build_lkp_rooted_tree (g : RoadNetwork) (lkpu lkpv : Int)
    (times_to_nodes : List (Int × ℚ)) (paths_to_nodes : List (Int × List Int))
    (time_elapsed : ℚ) : Option BuildState :=
  g.escape_nodes.foldl (fun ost e =>
    match ost with
    | none => none
    | some st =>
      match paths_to_nodes.lookup e with
      | none => some st
      | some path =>
        match en_score_value g lkpu lkpv path with
        | none => none
        | some base =>
          ((walk_pairs path).foldl (fun acc pc =>
              match acc with
              | none => none
              | some a => walk_step ((0, -time_elapsed) :: times_to_nodes) base a pc)
            (some (none, st))).map (fun a => a.2))
    (some ⟨[], 0⟩)

/-- The ancestor chain of a tree node through the parent links, nearest
ancestor first (the reversed root-to-node chain, node excluded). -/
inductive AncChain (d : List (Int × BTreeNode)) : Int → List Int → Prop where
  | root : ∀ n nd, (n, nd) ∈ d → nd.parent = none → AncChain d n []
  | step : ∀ n nd p c, (n, nd) ∈ d → nd.parent = some p → AncChain d p c →
      AncChain d n (p :: c)

/-- The first-occurrence segment of a list up to `n` inclusive. -/
def upto (n : Int) : List Int → List Int
  | [] => []
  | x :: xs => if x = n then [x] else x :: upto n xs

/-- The element just before the first occurrence of `n` (none when `n` is
the head): the `prev_osmid` of `n` in the pairwise walk. -/
def prevOf (n : Int) (l : List Int) : Option Int := (upto n l).dropLast.getLast?

/-- The escape-node paths, prefixed with the synthetic root 0, form a
consistent tree: each is duplicate-free and any two agree up to any
shared node.  This is what the prefix-sharing paths of a Dijkstra
shortest-path dict satisfy. -/
def FamilyConsistent (g : RoadNetwork) (paths : List (Int × List Int)) : Prop :=
  (∀ e ∈ g.escape_nodes, ∀ p, paths.lookup e = some p → (0 :: p).Nodup) ∧
  (∀ e ∈ g.escape_nodes, ∀ e2 ∈ g.escape_nodes, ∀ p p2, paths.lookup e = some p →
    paths.lookup e2 = some p2 → ∀ n, n ∈ 0 :: p → n ∈ 0 :: p2 →
      upto n (0 :: p) = upto n (0 :: p2))

theorem time_bonus_eq_zero_of_large (t : ℚ) (h : 431100 ≤ t) : time_bonus t = 0 := by
  have h479 : (480 : ℝ) < Real.exp 479 := by
    have := Real.add_one_lt_exp (show (479 : ℝ) ≠ 0 by norm_num)
    linarith
  have hmono : Real.exp (-(t : ℝ) / ((SCORE_TIME_CONSTANT : ℤ) : ℝ)) ≤ Real.exp (-479) := by
    apply Real.exp_le_exp.mpr
    have ht : (431100 : ℝ) ≤ (t : ℝ) := by exact_mod_cast h
    norm_num [SCORE_TIME_CONSTANT]
    linarith
  have hexp479 : Real.exp (-479) < 1 / 480 := by
    rw [Real.exp_neg, show (1 : ℝ)/480 = (480 : ℝ)⁻¹ by norm_num]
    exact inv_lt_inv_of_lt (by norm_num) h479
  have hval : Real.exp (-(t : ℝ) / ((SCORE_TIME_CONSTANT : ℤ) : ℝ))
      * ((SCORE_TIME_FACTOR : ℤ) : ℝ) < 1 := by
    have : ((SCORE_TIME_FACTOR : ℤ) : ℝ) = 480 := by norm_num [SCORE_TIME_FACTOR]
    rw [this]
    nlinarith [Real.exp_pos (-(t : ℝ) / ((SCORE_TIME_CONSTANT : ℤ) : ℝ))]
  have hpos : (0 : ℝ) ≤ Real.exp (-(t : ℝ) / ((SCORE_TIME_CONSTANT : ℤ) : ℝ))
      * ((SCORE_TIME_FACTOR : ℤ) : ℝ) := by
    have : (0 : ℝ) ≤ ((SCORE_TIME_FACTOR : ℤ) : ℝ) := by norm_num [SCORE_TIME_FACTOR]
    positivity
  unfold time_bonus pyInt
  rw [if_pos hpos]
  exact Int.floor_eq_iff.mpr ⟨by push_cast; linarith, by push_cast; linarith⟩

theorem score_contribution_of_large (base : ℤ) (t : ℚ) (h : 431100 ≤ t) :
    score_contribution base t = base := by
  unfold score_contribution
  rw [if_pos (by linarith : (0 : ℚ) < t), time_bonus_eq_zero_of_large t h, add_zero]

/-- The network of the C5 counterexample: escape nodes 10 and 11, with the
last edges (2, 10) and (4, 11) of the two escape paths present (rank 1
residential, so each path's base score is 80). -/
def njoiCexNet : RoadNetwork :=
  ⟨[], [⟨2, 10, 1, "no", 1⟩, ⟨4, 11, 1, "no", 1⟩], [10, 11]⟩

/-- Times for the C5 counterexample: nodes 1, 4, 10, 11 far in the future
(positive), nodes 2 and 3 already passed. -/
def njoiCexTimes : List (Int × ℚ) :=
  [(1, 500000), (2, -1), (3, -2), (4, 600000), (10, 700000), (11, 800000)]

/-- Paths for the C5 counterexample: they pass through the shared node 2
with different predecessors (1 on the first path, 3 on the second), which
the claim explicitly allows. -/
def njoiCexPaths : List (Int × List Int) :=
  [(10, [1, 2, 10]), (11, [3, 2, 4, 11])]

/-- The tree dict `build_lkp_rooted_tree` produces on the counterexample
input. -/
def njoiCexDict : List (Int × BTreeNode) :=
  [(0, ⟨none, -300, 0, false, none⟩),
   (1, ⟨some 0, 500000, 80, true, some 0⟩),
   (2, ⟨some 1, -1, 0, false, none⟩),
   (10, ⟨some 2, 700000, 80, false, some 1⟩),
   (3, ⟨some 0, -2, 0, false, none⟩),
   (4, ⟨some 2, 600000, 80, true, some 2⟩),
   (11, ⟨some 4, 800000, 80, false, some 3⟩)]

/-- C5 counterexample: over escape paths that pass through the same node
with different predecessors (which the claim explicitly includes), the
built tree has a root-to-leaf chain 0 → 1 → 2 → 4 → 11 containing TWO
nodes with `is_njoi = true` (1, set on the first path, and 4, set on the
second path because the walk reached the shared node 2 with a fresh njoi
flag), refuting "each root-to-leaf chain contains at most one TreeNode
with is_njoi = true". -/
theorem build_two_njois_counterexample :
    build_lkp_rooted_tree njoiCexNet 1 2 njoiCexTimes njoiCexPaths 300 =
      some ⟨njoiCexDict, 4⟩ ∧
    AncChain njoiCexDict 4 [2, 1, 0] ∧
    (4, ⟨some 2, 600000, 80, true, some 2⟩) ∈ njoiCexDict ∧
    (1, ⟨some 0, 500000, 80, true, some 0⟩) ∈ njoiCexDict ∧
    (1 : Int) ∈ [2, 1, 0] := by
  have hs5 : score_contribution 80 500000 = 80 := score_contribution_of_large _ _ (by norm_num)
  have hs6 : score_contribution 80 600000 = 80 := score_contribution_of_large _ _ (by norm_num)
  have hs7 : score_contribution 80 700000 = 80 := score_contribution_of_large _ _ (by norm_num)
  have hs8 : score_contribution 80 800000 = 80 := score_contribution_of_large _ _ (by norm_num)
  have hn0 : score_contribution 80 (-300) = 0 := (score_contribution_eq_floor _ _).2 (by norm_num)
  have hn1 : score_contribution 80 (-1) = 0 := (score_contribution_eq_floor _ _).2 (by norm_num)
  have hn2 : score_contribution 80 (-2) = 0 := (score_contribution_eq_floor _ _).2 (by norm_num)
  refine ⟨?_, ?_, by simp [njoiCexDict], by simp [njoiCexDict], by simp⟩
  · unfold build_lkp_rooted_tree
    simp [njoiCexNet, njoiCexTimes, njoiCexPaths, njoiCexDict, List.foldl,
      walk_pairs, pairsFrom, en_score_value, RoadNetwork.get_edge_hw_as_int,
      RoadNetwork.get_edge_data, SCORE_LAST_EDGE_FACTOR, walk_step, njoi_truthy,
      add_score, List.lookup, hs5, hs6, hs7, hs8, hn0, hn1, hn2,
      (by norm_num : (0 : ℚ) < 500000), (by norm_num : (0 : ℚ) < 600000),
      (by norm_num : (0 : ℚ) < 700000), (by norm_num : (0 : ℚ) < 800000),
      (by norm_num : ¬((0 : ℚ) < -300)), (by norm_num : ¬((0 : ℚ) < -1)),
      (by norm_num : ¬((0 : ℚ) < -2))]
  · refine AncChain.step 4 ⟨some 2, 600000, 80, true, some 2⟩ 2 [1, 0]
      (by simp [njoiCexDict]) rfl ?_
    refine AncChain.step 2 ⟨some 1, -1, 0, false, none⟩ 1 [0]
      (by simp [njoiCexDict]) rfl ?_
    refine AncChain.step 1 ⟨some 0, 500000, 80, true, some 0⟩ 0 []
      (by simp [njoiCexDict]) rfl ?_
    exact AncChain.root 0 ⟨none, -300, 0, false, none⟩ (by simp [njoiCexDict]) rfl

/-! ### List facts for the tree-build invariant -/

theorem upto_of_head (n : Int) (l : List Int) : upto n (n :: l) = [n] := by
  rw [show upto n (n :: l) = if n = n then [n] else n :: upto n l from rfl, if_pos rfl]

theorem upto_cons_ne (x n : Int) (l : List Int) (h : x ≠ n) :
    upto n (x :: l) = x :: upto n l := by
  rw [show upto n (x :: l) = if x = n then [x] else x :: upto n l from rfl, if_neg h]

theorem upto_append_of_not_mem (n : Int) :
    ∀ (l₁ l₂ : List Int), n ∉ l₁ → upto n (l₁ ++ n :: l₂) = l₁ ++ [n] := by
  intro l₁
  induction l₁ with
  | nil => intro l₂ _; simp [upto_of_head]
  | cons x xs ih =>
    intro l₂ hnm
    rw [List.cons_append, upto_cons_ne x n _ (by simp at hnm; exact Ne.symm hnm.1)]
    rw [ih l₂ (by simp at hnm; exact hnm.2)]
    rfl

theorem upto_append_of_mem (n : Int) :
    ∀ (l₁ l₂ : List Int), n ∈ l₁ → upto n (l₁ ++ l₂) = upto n l₁ := by
  intro l₁
  induction l₁ with
  | nil => intro l₂ h; cases h
  | cons x xs ih =>
    intro l₂ h
    by_cases hx : x = n
    · subst hx
      rw [List.cons_append, upto_of_head, upto_of_head]
    · rw [List.cons_append, upto_cons_ne x n _ hx, upto_cons_ne x n _ hx,
        ih l₂ (by rcases List.mem_cons.mp h with h | h; exact absurd h.symm hx; exact h)]

theorem upto_sub (n : Int) : ∀ (l : List Int), ∀ m ∈ upto n l, m ∈ l := by
  intro l
  induction l with
  | nil => intro m h; cases h
  | cons x xs ih =>
    intro m h
    by_cases hx : x = n
    · subst hx; rw [upto_of_head] at h
      simp at h; simp [h]
    · rw [upto_cons_ne x n _ hx] at h
      rcases List.mem_cons.mp h with h | h
      · simp [h]
      · exact List.mem_cons_of_mem _ (ih m h)

theorem mem_of_lookup_eq_some {β : Type} (d : List (Int × β)) (k : Int) (v : β)
    (h : d.lookup k = some v) : (k, v) ∈ d := by
  induction d with
  | nil => cases h
  | cons x xs ih =>
    rw [List.lookup] at h
    cases hk : (k == x.1) with
    | true =>
      rw [hk] at h
      dsimp only at h
      have h1 : k = x.1 := by simpa using hk
      have h2 : v = x.2 := by simpa using h.symm
      exact List.mem_cons.mpr (Or.inl (by rw [h1, h2]))
    | false =>
      rw [hk] at h
      dsimp only at h
      exact List.mem_cons_of_mem _ (ih h)

theorem lookup_isSome_of_mem {β : Type} (d : List (Int × β)) (k : Int) (v : β)
    (h : (k, v) ∈ d) : (d.lookup k).isSome := by
  induction d with
  | nil => cases h
  | cons x xs ih =>
    rw [List.lookup]
    cases hk : (k == x.1) with
    | true => simp
    | false =>
      dsimp only
      rcases List.mem_cons.mp h with h1 | h1
      · have h2 : k = x.1 := congrArg Prod.fst h1
        rw [h2] at hk; simp at hk
      · exact ih h1

theorem lookup_eq_none_of_not_mem {β : Type} (d : List (Int × β)) (k : Int)
    (h : d.lookup k = none) : ∀ v, (k, v) ∉ d := by
  intro v hv
  have := lookup_isSome_of_mem d k v hv
  rw [h] at this
  cases this

theorem mem_keys_of_mem {β : Type} (d : List (Int × β)) (k : Int) (v : β)
    (h : (k, v) ∈ d) : k ∈ d.map Prod.fst :=
  List.mem_map.mpr ⟨(k, v), h, rfl⟩

theorem entry_unique {β : Type} (d : List (Int × β)) (hk : (d.map Prod.fst).Nodup)
    (k : Int) (v w : β) (hv : (k, v) ∈ d) (hw : (k, w) ∈ d) : v = w := by
  induction d with
  | nil => cases hv
  | cons x xs ih =>
    rw [List.map_cons, List.nodup_cons] at hk
    rcases List.mem_cons.mp hv with h1 | h1 <;> rcases List.mem_cons.mp hw with h2 | h2
    · exact congrArg Prod.snd (h1.trans h2.symm)
    · exfalso
      apply hk.1
      have : k = x.1 := congrArg Prod.fst h1
      rw [← this]
      exact mem_keys_of_mem xs k w h2
    · exfalso
      apply hk.1
      have : k = x.1 := congrArg Prod.fst h2
      rw [← this]
      exact mem_keys_of_mem xs k v h1
    · exact ih hk.2 h1 h2

theorem mem_add_score {k2 : Int} {s : ℤ} {d : List (Int × BTreeNode)} {n : Int}
    {nd : BTreeNode} (h : (n, nd) ∈ add_score d k2 s) :
    ∃ nd0, (n, nd0) ∈ d ∧ nd.parent = nd0.parent ∧
      nd.time_reached = nd0.time_reached ∧ nd.is_njoi = nd0.is_njoi := by
  unfold add_score at h
  rw [List.mem_map] at h
  obtain ⟨q, hq, hqe⟩ := h
  by_cases hk : q.1 == k2
  · rw [if_pos hk] at hqe
    refine ⟨q.2, ?_, ?_⟩
    · have : n = q.1 := (congrArg Prod.fst hqe).symm
      rw [this]; exact hq
    · have h2 := congrArg Prod.snd hqe
      simp at h2
      rw [← h2]
      exact ⟨rfl, rfl, rfl⟩
  · rw [if_neg hk] at hqe
    have h1 : n = q.1 := (congrArg Prod.fst hqe).symm
    have h2 : nd = q.2 := (congrArg Prod.snd hqe).symm
    subst h1
    subst h2
    exact ⟨q.2, by rw [Prod.mk.eta]; exact hq, rfl, rfl, rfl⟩

theorem add_score_mem {k2 : Int} {s : ℤ} {d : List (Int × BTreeNode)} {n : Int}
    {nd0 : BTreeNode} (h : (n, nd0) ∈ d) :
    ∃ nd, (n, nd) ∈ add_score d k2 s ∧ nd.parent = nd0.parent ∧
      nd.time_reached = nd0.time_reached ∧ nd.is_njoi = nd0.is_njoi := by
  unfold add_score
  by_cases hk : n == k2
  · exact ⟨⟨nd0.parent, nd0.time_reached, nd0.score + s, nd0.is_njoi, nd0.candidate_id⟩,
      List.mem_map.mpr ⟨(n, nd0), h, by rw [if_pos hk]⟩, rfl, rfl, rfl⟩
  · exact ⟨nd0, List.mem_map.mpr ⟨(n, nd0), h, by rw [if_neg hk]⟩, rfl, rfl, rfl⟩

theorem add_score_keys (k2 : Int) (s : ℤ) (d : List (Int × BTreeNode)) :
    (add_score d k2 s).map Prod.fst = d.map Prod.fst := by
  unfold add_score
  rw [List.map_map]
  refine List.map_congr_left ?_
  intro q _
  by_cases hk : q.1 == k2
  · rw [Function.comp_apply, if_pos hk]
  · rw [Function.comp_apply, if_neg hk]

theorem upto_ne_nil (n : Int) : ∀ l : List Int, n ∈ l → upto n l ≠ [] := by
  intro l
  induction l with
  | nil => intro h; cases h
  | cons x xs ih =>
    intro h
    by_cases hx : x = n
    · subst hx; rw [upto_of_head]; simp
    · rw [upto_cons_ne x n xs hx]; simp

theorem dropLast_cons_ne_nil (x : Int) {l : List Int} (h : l ≠ []) :
    (x :: l).dropLast = x :: l.dropLast := by
  cases l with
  | nil => exact absurd rfl h
  | cons y ys => rfl

theorem upto_decomp (n : Int) : ∀ l : List Int, n ∈ l →
    ∃ l₁ l₂, l = l₁ ++ n :: l₂ ∧ n ∉ l₁ ∧ upto n l = l₁ ++ [n] := by
  intro l
  induction l with
  | nil => intro h; cases h
  | cons x xs ih =>
    intro h
    by_cases hx : x = n
    · subst hx
      exact ⟨[], xs, rfl, by simp, upto_of_head x xs⟩
    · have hn : n ∈ xs := by
        rcases List.mem_cons.mp h with h1 | h1
        · exact absurd h1.symm hx
        · exact h1
      obtain ⟨l₁, l₂, he, hm, hu⟩ := ih hn
      refine ⟨x :: l₁, l₂, by rw [List.cons_append, ← he], ?_, ?_⟩
      · simp only [List.mem_cons, not_or]
        exact ⟨fun hh => hx hh.symm, hm⟩
      · rw [upto_cons_ne x n xs hx, hu, List.cons_append]

theorem first_split_unique (n : Int) : ∀ (a c b d : List Int),
    a ++ n :: b = c ++ n :: d → n ∉ a → n ∉ c → a = c ∧ b = d := by
  intro a
  induction a with
  | nil =>
    intro c b d he hna hnc
    cases c with
    | nil =>
      rw [List.nil_append, List.nil_append] at he
      exact ⟨rfl, (List.cons_eq_cons.mp he).2⟩
    | cons y ys =>
      rw [List.nil_append, List.cons_append] at he
      exact absurd ((List.cons_eq_cons.mp he).1 ▸ List.mem_cons_self y ys) hnc
  | cons x xs ih =>
    intro c b d he hna hnc
    cases c with
    | nil =>
      rw [List.cons_append, List.nil_append] at he
      exact absurd ((List.cons_eq_cons.mp he).1.symm ▸ List.mem_cons_self x xs) hna
    | cons y ys =>
      rw [List.cons_append, List.cons_append] at he
      obtain ⟨hxy, ht⟩ := List.cons_eq_cons.mp he
      have hna2 : n ∉ xs := fun hh => hna (List.mem_cons_of_mem _ hh)
      have hnc2 : n ∉ ys := fun hh => hnc (List.mem_cons_of_mem _ hh)
      obtain ⟨h1, h2⟩ := ih ys b d ht hna2 hnc2
      exact ⟨by rw [hxy, h1], h2⟩

theorem upto_upto (n m : Int) : ∀ l : List Int, m ∈ upto n l →
    upto m l = upto m (upto n l) := by
  intro l
  induction l with
  | nil => intro h; cases h
  | cons x xs ih =>
    intro h
    by_cases hx : x = n
    · subst hx
      rw [upto_of_head] at h ⊢
      have : m = x := by simpa using h
      subst this
      rw [upto_of_head, upto_of_head]
    · rw [upto_cons_ne x n xs hx] at h ⊢
      by_cases hxm : x = m
      · subst hxm
        rw [upto_of_head, upto_of_head]
      · rw [upto_cons_ne x m _ hxm, upto_cons_ne x m _ hxm]
        have hm : m ∈ upto n xs := by
          rcases List.mem_cons.mp h with h1 | h1
          · exact absurd h1.symm hxm
          · exact h1
        rw [ih hm]

theorem upto_mem_antisymm (n₁ n₂ : Int) : ∀ l : List Int, n₁ ∈ l → n₂ ∈ l →
    n₁ ≠ n₂ → n₁ ∈ (upto n₂ l).dropLast ∨ n₂ ∈ (upto n₁ l).dropLast := by
  intro l
  induction l with
  | nil => intro h; cases h
  | cons x xs ih =>
    intro h1 h2 hne
    by_cases hx1 : x = n₁
    · subst hx1
      left
      have hn2 : n₂ ∈ xs := by
        rcases List.mem_cons.mp h2 with h | h
        · exact absurd h.symm (Ne.symm hne ∘ Eq.symm)
        · exact h
      rw [upto_cons_ne x n₂ xs (fun hh => hne hh),
        dropLast_cons_ne_nil x (upto_ne_nil n₂ xs hn2)]
      exact List.mem_cons_self _ _
    · by_cases hx2 : x = n₂
      · subst hx2
        right
        have hn1 : n₁ ∈ xs := by
          rcases List.mem_cons.mp h1 with h | h
          · exact absurd h.symm hx1
          · exact h
        rw [upto_cons_ne x n₁ xs hx1,
          dropLast_cons_ne_nil x (upto_ne_nil n₁ xs hn1)]
        exact List.mem_cons_self _ _
      · have hn1 : n₁ ∈ xs := by
          rcases List.mem_cons.mp h1 with h | h
          · exact absurd h.symm hx1
          · exact h
        have hn2 : n₂ ∈ xs := by
          rcases List.mem_cons.mp h2 with h | h
          · exact absurd h.symm hx2
          · exact h
        rcases ih hn1 hn2 hne with h | h
        · left
          rw [upto_cons_ne x n₂ xs hx2,
            dropLast_cons_ne_nil x (upto_ne_nil n₂ xs hn2)]
          exact List.mem_cons_of_mem _ h
        · right
          rw [upto_cons_ne x n₁ xs hx1,
            dropLast_cons_ne_nil x (upto_ne_nil n₁ xs hn1)]
          exact List.mem_cons_of_mem _ h

theorem exists_first (P : Int → Prop) : ∀ l : List Int, (∃ m ∈ l, P m) →
    ∃ l₁ m₀ l₂, l = l₁ ++ m₀ :: l₂ ∧ P m₀ ∧ ∀ m' ∈ l₁, ¬ P m' := by
  intro l
  induction l with
  | nil => rintro ⟨m, hm, _⟩; cases hm
  | cons x xs ih =>
    intro h
    by_cases hx : P x
    · exact ⟨[], x, xs, rfl, hx, by simp⟩
    · obtain ⟨m, hm, hPm⟩ := h
      have hm2 : m ∈ xs := by
        rcases List.mem_cons.mp hm with h1 | h1
        · exact absurd (h1 ▸ hPm) hx
        · exact h1
      obtain ⟨l₁, m₀, l₂, he, hP, hall⟩ := ih ⟨m, hm2, hPm⟩
      refine ⟨x :: l₁, m₀, l₂, by rw [he]; rfl, hP, ?_⟩
      intro m' hm'
      rcases List.mem_cons.mp hm' with h1 | h1
      · exact h1 ▸ hx
      · exact hall m' h1

theorem not_mem_keys_of_lookup_none {β : Type} (d : List (Int × β)) (k : Int)
    (h : d.lookup k = none) : k ∉ d.map Prod.fst := by
  intro hk
  obtain ⟨q, hq, hq1⟩ := List.mem_map.mp hk
  have : (k, q.2) ∈ d := by
    rw [← hq1, Prod.mk.eta]
    exact hq
  exact lookup_eq_none_of_not_mem d k h q.2 this

/-! ### The tree-dictionary invariant of `build_lkp_rooted_tree` -/

/-- `n` lies on some escape-node path of the family (with the synthetic
root 0 prefixed). -/
def OnFam (g : RoadNetwork) (paths : List (Int × List Int)) (n : Int) : Prop :=
  ∃ e ∈ g.escape_nodes, ∃ p, paths.lookup e = some p ∧ n ∈ 0 :: p

/-- What `build_lkp_rooted_tree` guarantees of a single tree-dict entry:
its stored time is the looked-up time, it lies on a family path, and for
every family path through it the parent link is the walk predecessor, all
walked predecessors are in the dict, and `is_njoi` holds exactly when its
time is positive while all walked predecessors have nonpositive times. -/
def EntryInv (g : RoadNetwork) (paths : List (Int × List Int))
    (timesL : List (Int × ℚ)) (d : List (Int × BTreeNode))
    (n : Int) (nd : BTreeNode) : Prop :=
  timesL.lookup n = some nd.time_reached ∧
  OnFam g paths n ∧
  ∀ e ∈ g.escape_nodes, ∀ p, paths.lookup e = some p → n ∈ 0 :: p →
    nd.parent = prevOf n (0 :: p) ∧
    (∀ m ∈ (upto n (0 :: p)).dropLast, ∃ md, (m, md) ∈ d) ∧
    (nd.is_njoi = true ↔ 0 < nd.time_reached ∧
      ∀ m ∈ (upto n (0 :: p)).dropLast, ∃ tm, timesL.lookup m = some tm ∧ tm ≤ 0)

/-- The whole tree dict is well-formed: keys are unique and every entry
satisfies `EntryInv`. -/
def DictInv (g : RoadNetwork) (paths : List (Int × List Int))
    (timesL : List (Int × ℚ)) (d : List (Int × BTreeNode)) : Prop :=
  (d.map Prod.fst).Nodup ∧ ∀ n nd, (n, nd) ∈ d → EntryInv g paths timesL d n nd

/-- Coherence of the `njoi` walk variable with the walked segment `done`:
`none` while all walked times are nonpositive, otherwise the first
positive-time node walked (which is never the root 0). -/
def WalkInv (timesL : List (Int × ℚ)) (done : List Int) (njoi : Option Int) : Prop :=
  (njoi = none → ∀ m ∈ done, ∃ tm, timesL.lookup m = some tm ∧ tm ≤ 0) ∧
  (∀ x, njoi = some x → x ≠ 0 ∧ ∃ d₁ d₂, done = d₁ ++ x :: d₂ ∧
    (∃ tx, timesL.lookup x = some tx ∧ 0 < tx) ∧
    (∀ m ∈ d₁, ∃ tm, timesL.lookup m = some tm ∧ tm ≤ 0))

theorem entryInv_mono {g : RoadNetwork} {paths : List (Int × List Int)}
    {timesL : List (Int × ℚ)} {d d' : List (Int × BTreeNode)} {n : Int} {nd : BTreeNode}
    (hsub : ∀ m md, (m, md) ∈ d → ∃ md', (m, md') ∈ d')
    (h : EntryInv g paths timesL d n nd) : EntryInv g paths timesL d' n nd := by
  obtain ⟨hT, hF, hP⟩ := h
  refine ⟨hT, hF, fun e he p hp hn => ?_⟩
  obtain ⟨h1, h2, h3⟩ := hP e he p hp hn
  refine ⟨h1, fun m hm => ?_, h3⟩
  obtain ⟨md, hmd⟩ := h2 m hm
  exact hsub m md hmd

theorem dictInv_add_score {g : RoadNetwork} {paths : List (Int × List Int)}
    {timesL : List (Int × ℚ)} {d : List (Int × BTreeNode)}
    (h : DictInv g paths timesL d) (k : Int) (s : ℤ) :
    DictInv g paths timesL (add_score d k s) := by
  refine ⟨by rw [add_score_keys]; exact h.1, fun n nd hnd => ?_⟩
  obtain ⟨nd0, hnd0, hpar, htime, hnj⟩ := mem_add_score hnd
  have h0 := h.2 n nd0 hnd0
  obtain ⟨hT, hF, hP⟩ := h0
  refine ⟨by rw [htime]; exact hT, hF, fun e he p hp hn => ?_⟩
  obtain ⟨h1, h2, h3⟩ := hP e he p hp hn
  refine ⟨by rw [hpar]; exact h1, fun m hm => ?_, by rw [hnj, htime]; exact h3⟩
  obtain ⟨md, hmd⟩ := h2 m hm
  obtain ⟨md', hmd', _⟩ := @add_score_mem k s d m md hmd
  exact ⟨md', hmd'⟩

theorem mem_of_getLast? {l : List Int} {a : Int} (h : l.getLast? = some a) : a ∈ l := by
  induction l with
  | nil => cases h
  | cons x xs ih =>
    cases hx : xs with
    | nil =>
      rw [hx] at h
      have : a = x := by simpa using h.symm
      simp [this]
    | cons y ys =>
      rw [hx] at h ih
      rw [List.getLast?_cons_cons] at h
      exact List.mem_cons_of_mem _ (ih h)

theorem walkInv_flip_none {timesL : List (Int × ℚ)} {done : List Int} {njoi : Option Int}
    (hW : WalkInv timesL done njoi) (hf : njoi_truthy njoi = false) : njoi = none := by
  cases hn : njoi with
  | none => rfl
  | some x =>
    obtain ⟨hx0, _⟩ := hW.2 x hn
    rw [hn] at hf
    simp [njoi_truthy, hx0] at hf

theorem walkInv_extend (timesL : List (Int × ℚ)) (done : List Int) (curr : Int)
    (t : ℚ) (njoi : Option Int) (ht : timesL.lookup curr = some t) (hc0 : curr ≠ 0)
    (hW : WalkInv timesL done njoi) :
    WalkInv timesL (done ++ [curr])
      (if 0 < t ∧ njoi_truthy njoi = false then some curr else njoi) := by
  by_cases hflip : 0 < t ∧ njoi_truthy njoi = false
  · rw [if_pos hflip]
    have hnone : njoi = none := walkInv_flip_none hW hflip.2
    constructor
    · intro h; cases h
    · intro x hx
      have hxc : x = curr := by simpa using hx.symm
      subst hxc
      exact ⟨hc0, done, [], rfl, ⟨t, ht, hflip.1⟩, hW.1 hnone⟩
  · rw [if_neg hflip]
    constructor
    · intro hn m hm
      rcases List.mem_append.mp hm with h1 | h1
      · exact hW.1 hn m h1
      · have : m = curr := by simpa using h1
        subst this
        refine ⟨t, ht, ?_⟩
        by_contra hpos
        push_neg at hpos
        exact hflip ⟨hpos, by rw [hn]; rfl⟩
    · intro x hx
      obtain ⟨hx0, d₁, d₂, hde, htx, hall⟩ := hW.2 x hx
      exact ⟨hx0, d₁, d₂ ++ [curr],
        by rw [hde, List.append_assoc, List.cons_append], htx, hall⟩

theorem njoi_beq_iff (timesL : List (Int × ℚ)) (done : List Int) (curr : Int)
    (t : ℚ) (njoi : Option Int) (ht : timesL.lookup curr = some t)
    (hcd : curr ∉ done) (hW : WalkInv timesL done njoi) :
    (((if 0 < t ∧ njoi_truthy njoi = false then some curr else njoi) == some curr) = true ↔
      0 < t ∧ ∀ m ∈ done, ∃ tm, timesL.lookup m = some tm ∧ tm ≤ 0) := by
  by_cases hflip : 0 < t ∧ njoi_truthy njoi = false
  · rw [if_pos hflip]
    have hnone : njoi = none := walkInv_flip_none hW hflip.2
    exact iff_of_true (by simp) ⟨hflip.1, hW.1 hnone⟩
  · rw [if_neg hflip]
    cases hn : njoi with
    | none =>
      constructor
      · intro h; simp at h
      · rintro ⟨hpos, -⟩
        exact absurd ⟨hpos, by rw [hn]; rfl⟩ hflip
    | some x =>
      obtain ⟨hx0, d₁, d₂, hde, ⟨tx, htx, htxpos⟩, hall⟩ := hW.2 x hn
      have hxd : x ∈ done := by
        rw [hde]
        exact List.mem_append.mpr (Or.inr (List.mem_cons_self _ _))
      have hxc : x ≠ curr := fun hh => hcd (hh ▸ hxd)
      constructor
      · intro h
        exact absurd (by simpa using h) hxc
      · rintro ⟨-, hallle⟩
        exfalso
        obtain ⟨tm, htm, htmle⟩ := hallle x hxd
        rw [htx] at htm
        have hteq : tx = tm := by injection htm
        rw [hteq] at htxpos
        linarith

theorem walk_step_shape (timesL : List (Int × ℚ)) (base : ℤ) (njoi : Option Int)
    (st : BuildState) (a curr : Int) (njoi' : Option Int) (st' : BuildState)
    (hstep : walk_step timesL base (njoi, st) (some a, curr) = some (njoi', st')) :
    ∃ t, timesL.lookup curr = some t ∧
      njoi' = (if 0 < t ∧ njoi_truthy njoi = false then some curr else njoi) ∧
      st'.counter = (if (st.tree_dict.lookup curr).isSome then st.counter
        else if 0 < score_contribution base t then st.counter + 1 else st.counter) ∧
      (((st.tree_dict.lookup curr).isSome ∧
          st'.tree_dict = add_score st.tree_dict curr (score_contribution base t)) ∨
        (st.tree_dict.lookup curr = none ∧ (st.tree_dict.lookup a).isSome ∧
          st'.tree_dict = st.tree_dict ++ [(curr,
            ⟨some a, t, score_contribution base t,
             (if 0 < t ∧ njoi_truthy njoi = false then some curr else njoi) == some curr,
             if 0 < score_contribution base t then some st.counter else none⟩)])) := by
  unfold walk_step at hstep
  dsimp only at hstep
  rcases ht : timesL.lookup curr with _ | t
  · rw [ht] at hstep
    cases hstep
  · rw [ht] at hstep
    dsimp only at hstep
    refine ⟨t, rfl, ?_⟩
    by_cases hcmem : (st.tree_dict.lookup curr).isSome
    · rw [if_pos hcmem] at hstep
      have hpair := Option.some.inj hstep
      have h1 := congrArg Prod.fst hpair
      have h2 := congrArg Prod.snd hpair
      dsimp only at h1 h2
      refine ⟨h1.symm, ?_, Or.inl ⟨hcmem, ?_⟩⟩
      · rw [if_pos hcmem, ← h2]
      · rw [← h2]
    · rw [if_neg hcmem] at hstep
      by_cases hamem : (st.tree_dict.lookup a).isSome
      · rw [if_pos hamem] at hstep
        have hpair := Option.some.inj hstep
        have h1 := congrArg Prod.fst hpair
        have h2 := congrArg Prod.snd hpair
        dsimp only at h1 h2
        refine ⟨h1.symm, ?_, Or.inr ⟨Option.not_isSome_iff_eq_none.mp hcmem, hamem, ?_⟩⟩
        · rw [if_neg hcmem, ← h2]
        · rw [← h2]
      · rw [if_neg hamem] at hstep
        cases hstep

theorem walk_step_shape_root (timesL : List (Int × ℚ)) (base : ℤ) (njoi : Option Int)
    (st : BuildState) (njoi' : Option Int) (st' : BuildState)
    (hstep : walk_step timesL base (njoi, st) (none, 0) = some (njoi', st')) :
    ∃ t, timesL.lookup 0 = some t ∧
      njoi' = (if 0 < t ∧ njoi_truthy njoi = false then some 0 else njoi) ∧
      (((st.tree_dict.lookup 0).isSome ∧
          st'.tree_dict = add_score st.tree_dict 0 (score_contribution base t)) ∨
        (st.tree_dict.lookup 0 = none ∧
          st'.tree_dict = st.tree_dict ++ [(0,
            ⟨none, t, score_contribution base t,
             (if 0 < t ∧ njoi_truthy njoi = false then some 0 else njoi) == some 0,
             if 0 < score_contribution base t then some st.counter else none⟩)])) := by
  unfold walk_step at hstep
  dsimp only at hstep
  rcases ht : timesL.lookup 0 with _ | t
  · rw [ht] at hstep
    cases hstep
  · rw [ht] at hstep
    dsimp only at hstep
    refine ⟨t, rfl, ?_⟩
    by_cases hcmem : (st.tree_dict.lookup 0).isSome
    · rw [if_pos hcmem] at hstep
      have hpair := Option.some.inj hstep
      have h1 := congrArg Prod.fst hpair
      have h2 := congrArg Prod.snd hpair
      dsimp only at h1 h2
      exact ⟨h1.symm, Or.inl ⟨hcmem, by rw [← h2]⟩⟩
    · rw [if_neg hcmem] at hstep
      have hpair := Option.some.inj hstep
      have h1 := congrArg Prod.fst hpair
      have h2 := congrArg Prod.snd hpair
      dsimp only at h1 h2
      exact ⟨h1.symm, Or.inr ⟨Option.not_isSome_iff_eq_none.mp hcmem, by rw [← h2]⟩⟩

theorem walk_step_preserves (g : RoadNetwork) (paths : List (Int × List Int))
    (timesL : List (Int × ℚ)) (base : ℤ) (e : Int) (p : List Int)
    (hfam : FamilyConsistent g paths)
    (he : e ∈ g.escape_nodes) (hp : paths.lookup e = some p)
    (done rest2 : List Int) (a curr : Int) (njoi njoi2 : Option Int)
    (st st2 : BuildState)
    (hfull : 0 :: p = done ++ curr :: rest2)
    (hlast : done.getLast? = some a)
    (hD : DictInv g paths timesL st.tree_dict)
    (hdone : ∀ m ∈ done, ∃ md, (m, md) ∈ st.tree_dict)
    (hW : WalkInv timesL done njoi)
    (hstep : walk_step timesL base (njoi, st) (some a, curr) = some (njoi2, st2)) :
    DictInv g paths timesL st2.tree_dict ∧
    (∀ m ∈ done ++ [curr], ∃ md, (m, md) ∈ st2.tree_dict) ∧
    WalkInv timesL (done ++ [curr]) njoi2 ∧
    (∀ m md, (m, md) ∈ st.tree_dict → ∃ md', (m, md') ∈ st2.tree_dict) := by
  obtain ⟨t, ht, hN, hcnt, hbr⟩ := walk_step_shape timesL base njoi st a curr njoi2 st2 hstep
  have hnodup : (0 :: p).Nodup := hfam.1 e he p hp
  have hnd2 : (done ++ curr :: rest2).Nodup := by rw [← hfull]; exact hnodup
  have hcd : curr ∉ done := by
    rw [List.nodup_append] at hnd2
    intro hc
    exact hnd2.2.2 hc (List.mem_cons_self _ _)
  have hdnn : done ≠ [] := by
    intro h
    rw [h] at hlast
    cases hlast
  have h0done : 0 ∈ done := by
    cases hd : done with
    | nil => exact absurd hd hdnn
    | cons x xs =>
      rw [hd, List.cons_append] at hfull
      have hx : 0 = x := (List.cons_eq_cons.mp hfull).1
      rw [← hx]
      exact List.mem_cons_self _ _
  have hc0 : curr ≠ 0 := fun h => hcd (by rw [h]; exact h0done)
  have hcurrp : curr ∈ 0 :: p := by
    rw [hfull]
    exact List.mem_append.mpr (Or.inr (List.mem_cons_self _ _))
  have huptop : upto curr (0 :: p) = done ++ [curr] := by
    rw [hfull]
    exact upto_append_of_not_mem curr done rest2 hcd
  have hconsist : ∀ e2 ∈ g.escape_nodes, ∀ p2, paths.lookup e2 = some p2 →
      curr ∈ 0 :: p2 → upto curr (0 :: p2) = done ++ [curr] := by
    intro e2 he2 p2 hp2 hc2
    rw [← hfam.2 e he e2 he2 p p2 hp hp2 curr hcurrp hc2]
    exact huptop
  have hWext : WalkInv timesL (done ++ [curr]) njoi2 := by
    rw [hN]
    exact walkInv_extend timesL done curr t njoi ht hc0 hW
  rcases hbr with ⟨hcmem, hst2⟩ | ⟨hcnone, hamem, hst2⟩
  · obtain ⟨cd, hcdl⟩ := Option.isSome_iff_exists.mp hcmem
    have hcmem2 : (curr, cd) ∈ st.tree_dict := mem_of_lookup_eq_some _ _ _ hcdl
    have hmono : ∀ m md, (m, md) ∈ st.tree_dict → ∃ md', (m, md') ∈ st2.tree_dict := by
      intro m md hmd
      obtain ⟨md', hmd', _⟩ :=
        @add_score_mem curr (score_contribution base t) st.tree_dict m md hmd
      exact ⟨md', by rw [hst2]; exact hmd'⟩
    refine ⟨by rw [hst2]; exact dictInv_add_score hD _ _, ?_, hWext, hmono⟩
    intro m hm
    rcases List.mem_append.mp hm with h1 | h1
    · obtain ⟨md, hmd⟩ := hdone m h1
      exact hmono m md hmd
    · have hmc : m = curr := by simpa using h1
      subst hmc
      exact hmono m cd hcmem2
  · have hnotkeys : curr ∉ st.tree_dict.map Prod.fst :=
      not_mem_keys_of_lookup_none _ _ hcnone
    have hmono : ∀ m md, (m, md) ∈ st.tree_dict → ∃ md', (m, md') ∈ st2.tree_dict := by
      intro m md hmd
      exact ⟨md, by rw [hst2]; exact List.mem_append.mpr (Or.inl hmd)⟩
    have hdone2 : ∀ m ∈ done ++ [curr], ∃ md, (m, md) ∈ st2.tree_dict := by
      intro m hm
      rcases List.mem_append.mp hm with h1 | h1
      · obtain ⟨md, hmd⟩ := hdone m h1
        exact hmono m md hmd
      · have hmc : m = curr := by simpa using h1
        subst hmc
        refine ⟨⟨some a, t, score_contribution base t,
          (if 0 < t ∧ njoi_truthy njoi = false then some m else njoi) == some m,
          if 0 < score_contribution base t then some st.counter else none⟩, ?_⟩
        rw [hst2]
        exact List.mem_append.mpr (Or.inr (List.mem_cons_self _ _))
    refine ⟨⟨?_, ?_⟩, hdone2, hWext, hmono⟩
    · rw [hst2, List.map_append, List.nodup_append]
      refine ⟨hD.1, List.nodup_singleton _, ?_⟩
      intro x hx hx2
      have hxc : x = curr := by simpa using hx2
      subst hxc
      exact hnotkeys hx
    · intro n nd hnd
      rw [hst2] at hnd
      rcases List.mem_append.mp hnd with hold | hnew
      · exact entryInv_mono hmono (hD.2 n nd hold)
      · have hpair := List.mem_singleton.mp hnew
        have h1 : n = curr := congrArg Prod.fst hpair
        have h2 : nd = ⟨some a, t, score_contribution base t,
            (if 0 < t ∧ njoi_truthy njoi = false then some curr else njoi) == some curr,
            if 0 < score_contribution base t then some st.counter else none⟩ :=
          congrArg Prod.snd hpair
        subst h1
        subst h2
        refine ⟨ht, ⟨e, he, p, hp, hcurrp⟩, ?_⟩
        intro e2 he2 p2 hp2 hc2
        have hup2 : upto n (0 :: p2) = done ++ [n] := hconsist e2 he2 p2 hp2 hc2
        refine ⟨?_, ?_, ?_⟩
        · unfold prevOf
          rw [hup2, List.dropLast_concat]
          exact hlast.symm
        · intro m hm
          rw [hup2, List.dropLast_concat] at hm
          obtain ⟨md, hmd⟩ := hdone m hm
          exact hmono m md hmd
        · rw [hup2, List.dropLast_concat]
          exact njoi_beq_iff timesL done n t njoi ht hcd hW

theorem walk_first_preserves (g : RoadNetwork) (paths : List (Int × List Int))
    (times0 : List (Int × ℚ)) (te : ℚ) (base : ℤ) (e : Int) (p : List Int)
    (hte : 0 ≤ te)
    (he : e ∈ g.escape_nodes) (hp : paths.lookup e = some p)
    (njoi2 : Option Int) (st st2 : BuildState)
    (hD : DictInv g paths ((0, -te) :: times0) st.tree_dict)
    (hstep : walk_step ((0, -te) :: times0) base (none, st) (none, 0) = some (njoi2, st2)) :
    DictInv g paths ((0, -te) :: times0) st2.tree_dict ∧
    (∀ m ∈ [(0 : Int)], ∃ md, (m, md) ∈ st2.tree_dict) ∧
    WalkInv ((0, -te) :: times0) [0] njoi2 ∧
    (∀ m md, (m, md) ∈ st.tree_dict → ∃ md', (m, md') ∈ st2.tree_dict) := by
  obtain ⟨t, ht, hN, hbr⟩ := walk_step_shape_root _ base none st njoi2 st2 hstep
  have ht0 : t = -te := by
    rw [show List.lookup (0 : Int) ((0, -te) :: times0) = some (-te) from rfl] at ht
    exact (Option.some.inj ht).symm
  have htle : t ≤ 0 := by rw [ht0]; linarith
  have hflipf : ¬(0 < t ∧ njoi_truthy (none : Option Int) = false) := by
    rintro ⟨hpos, -⟩
    linarith
  rw [if_neg hflipf] at hN
  have hWI : WalkInv ((0, -te) :: times0) [0] njoi2 := by
    rw [hN]
    constructor
    · intro _ m hm
      have hm0 : m = 0 := by simpa using hm
      subst hm0
      exact ⟨t, ht, htle⟩
    · intro x hx
      exact Option.noConfusion hx
  rcases hbr with ⟨hcmem, hst2⟩ | ⟨hcnone, hst2⟩
  · obtain ⟨cd, hcdl⟩ := Option.isSome_iff_exists.mp hcmem
    have hc2 : ((0 : Int), cd) ∈ st.tree_dict := mem_of_lookup_eq_some _ _ _ hcdl
    have hmono : ∀ m md, (m, md) ∈ st.tree_dict → ∃ md', (m, md') ∈ st2.tree_dict := by
      intro m md hmd
      obtain ⟨md', hmd', _⟩ := add_score_mem hmd
      exact ⟨md', by rw [hst2]; exact hmd'⟩
    refine ⟨by rw [hst2]; exact dictInv_add_score hD _ _, ?_, hWI, hmono⟩
    intro m hm
    have hm0 : m = 0 := by simpa using hm
    subst hm0
    exact hmono _ cd hc2
  · have hmono : ∀ m md, (m, md) ∈ st.tree_dict → ∃ md', (m, md') ∈ st2.tree_dict := by
      intro m md hmd
      exact ⟨md, by rw [hst2]; exact List.mem_append.mpr (Or.inl hmd)⟩
    have hdone2 : ∀ m ∈ [(0 : Int)], ∃ md, (m, md) ∈ st2.tree_dict := by
      intro m hm
      have hm0 : m = 0 := by simpa using hm
      subst hm0
      refine ⟨⟨none, t, score_contribution base t,
        (if 0 < t ∧ njoi_truthy (none : Option Int) = false then some (0 : Int)
          else (none : Option Int)) == some (0 : Int),
        if 0 < score_contribution base t then some st.counter else none⟩, ?_⟩
      rw [hst2]
      exact List.mem_append.mpr (Or.inr (List.mem_cons_self _ _))
    refine ⟨⟨?_, ?_⟩, hdone2, hWI, hmono⟩
    · rw [hst2, List.map_append, List.nodup_append]
      refine ⟨hD.1, List.nodup_singleton _, ?_⟩
      intro x hx hx2
      have hxc : x = (0 : Int) := by simpa using hx2
      subst hxc
      exact not_mem_keys_of_lookup_none _ _ hcnone hx
    · intro n nd hnd
      rw [hst2] at hnd
      rcases List.mem_append.mp hnd with hold | hnew
      · exact entryInv_mono hmono (hD.2 n nd hold)
      · have hpair := List.mem_singleton.mp hnew
        have h1 : n = (0 : Int) := congrArg Prod.fst hpair
        have h2 : nd = ⟨none, t, score_contribution base t,
            (if 0 < t ∧ njoi_truthy (none : Option Int) = false then some (0 : Int)
              else (none : Option Int)) == some (0 : Int),
            if 0 < score_contribution base t then some st.counter else none⟩ :=
          congrArg Prod.snd hpair
        subst h1
        subst h2
        refine ⟨ht, ⟨e, he, p, hp, List.mem_cons_self _ _⟩, ?_⟩
        intro e2 he2 p2 hp2 hc2
        refine ⟨?_, ?_, ?_⟩
        · unfold prevOf
          rw [upto_of_head]
          rfl
        · intro m hm
          rw [upto_of_head] at hm
          cases hm
        · rw [upto_of_head]
          rw [if_neg hflipf]
          constructor
          · intro h
            simp at h
          · rintro ⟨hpos, -⟩
            exact absurd hpos (by linarith)

/-- The step function of the pairwise walk fold, named for reasoning (the
same lambda as in `build_lkp_rooted_tree`). -/
noncomputable def walkF (timesL : List (Int × ℚ)) (base : ℤ) :
    Option (Option Int × BuildState) → Option Int × Int → Option (Option Int × BuildState) :=
  fun acc pc =>
    match acc with
    | none => none
    | some a => walk_step timesL base a pc

/-- The step function of the escape-node fold, named for reasoning (the
same lambda as in `build_lkp_rooted_tree`). -/
noncomputable def buildF (g : RoadNetwork) (lkpu lkpv : Int)
    (times0 : List (Int × ℚ)) (paths : List (Int × List Int)) (te : ℚ) :
    Option BuildState → Int → Option BuildState :=
  fun ost e =>
    match ost with
    | none => none
    | some st =>
      match paths.lookup e with
      | none => some st
      | some path =>
        match en_score_value g lkpu lkpv path with
        | none => none
        | some base =>
          ((walk_pairs path).foldl (walkF ((0, -te) :: times0) base) (some (none, st))).map
            (fun a => a.2)

theorem build_eq_foldF (g : RoadNetwork) (lkpu lkpv : Int)
    (times0 : List (Int × ℚ)) (paths : List (Int × List Int)) (te : ℚ) :
    build_lkp_rooted_tree g lkpu lkpv times0 paths te =
      g.escape_nodes.foldl (buildF g lkpu lkpv times0 paths te) (some ⟨[], 0⟩) := rfl

theorem foldl_walk_none (timesL : List (Int × ℚ)) (base : ℤ) :
    ∀ l : List (Option Int × Int), l.foldl (walkF timesL base) none = none := by
  intro l
  induction l with
  | nil => rfl
  | cons x xs ih =>
    rw [List.foldl_cons]
    exact ih

theorem walk_go_inv (g : RoadNetwork) (paths : List (Int × List Int))
    (timesL : List (Int × ℚ)) (base : ℤ) (e : Int) (p : List Int)
    (hfam : FamilyConsistent g paths)
    (he : e ∈ g.escape_nodes) (hp : paths.lookup e = some p) :
    ∀ (rest done : List Int) (a : Int) (njoi : Option Int) (st : BuildState)
      (res : Option Int × BuildState),
      0 :: p = done ++ rest →
      done.getLast? = some a →
      DictInv g paths timesL st.tree_dict →
      (∀ m ∈ done, ∃ md, (m, md) ∈ st.tree_dict) →
      WalkInv timesL done njoi →
      (pairsFrom a rest).foldl (walkF timesL base) (some (njoi, st)) = some res →
      DictInv g paths timesL res.2.tree_dict ∧
      (∀ m ∈ 0 :: p, ∃ md, (m, md) ∈ res.2.tree_dict) ∧
      (∀ m md, (m, md) ∈ st.tree_dict → ∃ md', (m, md') ∈ res.2.tree_dict) := by
  intro rest
  induction rest with
  | nil =>
    intro done a njoi st res hfull hlast hD hdone hW hfold
    rw [show pairsFrom a [] = [] from rfl, List.foldl_nil] at hfold
    have hres := Option.some.inj hfold
    rw [← hres]
    refine ⟨hD, ?_, fun m md hmd => ⟨md, hmd⟩⟩
    intro m hm
    rw [hfull, List.append_nil] at hm
    exact hdone m hm
  | cons curr rest2 ih =>
    intro done a njoi st res hfull hlast hD hdone hW hfold
    rw [show pairsFrom a (curr :: rest2) = (some a, curr) :: pairsFrom curr rest2 from rfl,
      List.foldl_cons] at hfold
    cases hstep : walk_step timesL base (njoi, st) (some a, curr) with
    | none =>
      rw [show walkF timesL base (some (njoi, st)) (some a, curr) =
          walk_step timesL base (njoi, st) (some a, curr) from rfl, hstep,
        foldl_walk_none] at hfold
      cases hfold
    | some pr =>
      obtain ⟨njoi2, st2⟩ := pr
      rw [show walkF timesL base (some (njoi, st)) (some a, curr) =
          walk_step timesL base (njoi, st) (some a, curr) from rfl, hstep] at hfold
      obtain ⟨hD2, hdone2, hW2, hmono2⟩ := walk_step_preserves g paths timesL base e p
        hfam he hp done rest2 a curr njoi njoi2 st st2 hfull hlast hD hdone hW hstep
      obtain ⟨hDr, hallr, hmonor⟩ := ih (done ++ [curr]) curr njoi2 st2 res
        (by rw [hfull, List.append_cons]) (List.getLast?_concat _) hD2 hdone2 hW2 hfold
      refine ⟨hDr, hallr, fun m md hmd => ?_⟩
      obtain ⟨md', h'⟩ := hmono2 m md hmd
      exact hmonor m md' h'

theorem walk_path_inv (g : RoadNetwork) (paths : List (Int × List Int))
    (times0 : List (Int × ℚ)) (te : ℚ) (base : ℤ) (e : Int) (p : List Int)
    (hte : 0 ≤ te) (hfam : FamilyConsistent g paths)
    (he : e ∈ g.escape_nodes) (hp : paths.lookup e = some p)
    (st : BuildState) (res : Option Int × BuildState)
    (hD : DictInv g paths ((0, -te) :: times0) st.tree_dict)
    (hfold : (walk_pairs p).foldl (walkF ((0, -te) :: times0) base) (some (none, st)) =
      some res) :
    DictInv g paths ((0, -te) :: times0) res.2.tree_dict ∧
    (∀ m ∈ 0 :: p, ∃ md, (m, md) ∈ res.2.tree_dict) ∧
    (∀ m md, (m, md) ∈ st.tree_dict → ∃ md', (m, md') ∈ res.2.tree_dict) := by
  rw [show walk_pairs p = (none, 0) :: pairsFrom 0 p from rfl, List.foldl_cons] at hfold
  cases hstep : walk_step ((0, -te) :: times0) base (none, st) (none, 0) with
  | none =>
    rw [show walkF ((0, -te) :: times0) base (some (none, st)) (none, 0) =
        walk_step ((0, -te) :: times0) base (none, st) (none, 0) from rfl, hstep,
      foldl_walk_none] at hfold
    cases hfold
  | some pr =>
    obtain ⟨njoi2, st2⟩ := pr
    rw [show walkF ((0, -te) :: times0) base (some (none, st)) (none, 0) =
        walk_step ((0, -te) :: times0) base (none, st) (none, 0) from rfl, hstep] at hfold
    obtain ⟨hD2, hdone2, hW2, hmono2⟩ := walk_first_preserves g paths times0 te base e p
      hte he hp njoi2 st st2 hD hstep
    obtain ⟨hDr, hallr, hmonor⟩ := walk_go_inv g paths ((0, -te) :: times0) base e p
      hfam he hp p [0] 0 njoi2 st2 res rfl (by simp) hD2 hdone2 hW2 hfold
    refine ⟨hDr, hallr, fun m md hmd => ?_⟩
    obtain ⟨md', h'⟩ := hmono2 m md hmd
    exact hmonor m md' h'

theorem foldl_build_none (g : RoadNetwork) (lkpu lkpv : Int)
    (times0 : List (Int × ℚ)) (paths : List (Int × List Int)) (te : ℚ) :
    ∀ esc : List Int, esc.foldl (buildF g lkpu lkpv times0 paths te) none = none := by
  intro esc
  induction esc with
  | nil => rfl
  | cons x xs ih =>
    rw [List.foldl_cons]
    exact ih

theorem build_fold_inv (g : RoadNetwork) (lkpu lkpv : Int)
    (times0 : List (Int × ℚ)) (paths : List (Int × List Int)) (te : ℚ)
    (hte : 0 ≤ te) (hfam : FamilyConsistent g paths) :
    ∀ (esc : List Int) (st0 st : BuildState),
      (∀ e ∈ esc, e ∈ g.escape_nodes) →
      DictInv g paths ((0, -te) :: times0) st0.tree_dict →
      esc.foldl (buildF g lkpu lkpv times0 paths te) (some st0) = some st →
      DictInv g paths ((0, -te) :: times0) st.tree_dict := by
  intro esc
  induction esc with
  | nil =>
    intro st0 st _ hD hfold
    rw [List.foldl_nil] at hfold
    rw [← Option.some.inj hfold]
    exact hD
  | cons ecur esc2 ih =>
    intro st0 st hsub hD hfold
    rw [List.foldl_cons] at hfold
    have hecur : ecur ∈ g.escape_nodes := hsub ecur (List.mem_cons_self _ _)
    have hsub2 : ∀ e ∈ esc2, e ∈ g.escape_nodes :=
      fun e hme => hsub e (List.mem_cons_of_mem _ hme)
    cases hpl : paths.lookup ecur with
    | none =>
      rw [show buildF g lkpu lkpv times0 paths te (some st0) ecur =
          (match paths.lookup ecur with
           | none => some st0
           | some path =>
             match en_score_value g lkpu lkpv path with
             | none => none
             | some base =>
               ((walk_pairs path).foldl (walkF ((0, -te) :: times0) base)
                 (some (none, st0))).map (fun a => a.2)) from rfl, hpl] at hfold
      exact ih st0 st hsub2 hD hfold
    | some path =>
      rw [show buildF g lkpu lkpv times0 paths te (some st0) ecur =
          (match paths.lookup ecur with
           | none => some st0
           | some path =>
             match en_score_value g lkpu lkpv path with
             | none => none
             | some base =>
               ((walk_pairs path).foldl (walkF ((0, -te) :: times0) base)
                 (some (none, st0))).map (fun a => a.2)) from rfl, hpl] at hfold
      dsimp only at hfold
      cases hen : en_score_value g lkpu lkpv path with
      | none =>
        rw [hen, foldl_build_none] at hfold
        cases hfold
      | some base =>
        rw [hen] at hfold
        dsimp only at hfold
        cases hw : (walk_pairs path).foldl (walkF ((0, -te) :: times0) base)
            (some (none, st0)) with
        | none =>
          rw [hw] at hfold
          rw [show (none : Option (Option Int × BuildState)).map (fun a => a.2) = none
            from rfl, foldl_build_none] at hfold
          cases hfold
        | some pr =>
          rw [hw] at hfold
          rw [show (some pr).map (fun a : Option Int × BuildState => a.2) = some pr.2
            from rfl] at hfold
          obtain ⟨hD2, _, _⟩ := walk_path_inv g paths times0 te base ecur path
            hte hfam hecur hpl st0 pr hD hw
          exact ih pr.2 st hsub2 hD2 hfold

theorem build_dictInv (g : RoadNetwork) (lkpu lkpv : Int)
    (times0 : List (Int × ℚ)) (paths : List (Int × List Int)) (te : ℚ)
    (st : BuildState) (hte : 0 ≤ te) (hfam : FamilyConsistent g paths)
    (hb : build_lkp_rooted_tree g lkpu lkpv times0 paths te = some st) :
    DictInv g paths ((0, -te) :: times0) st.tree_dict := by
  rw [build_eq_foldF] at hb
  exact build_fold_inv g lkpu lkpv times0 paths te hte hfam g.escape_nodes ⟨[], 0⟩ st
    (fun e hme => hme) ⟨by simp, by intro n nd h; cases h⟩ hb

theorem upto_nodup (n : Int) (l : List Int) (hn : n ∈ l) (hl : l.Nodup) :
    (upto n l).Nodup := by
  obtain ⟨l₁, l₂, hsplit, hnot, hu⟩ := upto_decomp n l hn
  rw [hu]
  rw [hsplit, List.nodup_append] at hl
  rw [List.nodup_append]
  refine ⟨hl.1, List.nodup_singleton _, ?_⟩
  intro x hx hx2
  have hxn : x = n := by simpa using hx2
  subst hxn
  exact hnot hx

theorem dictInv_upto_mem {g : RoadNetwork} {paths : List (Int × List Int)}
    {timesL : List (Int × ℚ)} {d : List (Int × BTreeNode)}
    (hD : DictInv g paths timesL d)
    (n : Int) (nd : BTreeNode) (hnd : (n, nd) ∈ d)
    (e : Int) (he : e ∈ g.escape_nodes) (p : List Int) (hp : paths.lookup e = some p)
    (hn : n ∈ 0 :: p) : ∀ m ∈ upto n (0 :: p), ∃ md, (m, md) ∈ d := by
  obtain ⟨l₁, l₂, hsplit, hnot, hu⟩ := upto_decomp n (0 :: p) hn
  have hdl : (upto n (0 :: p)).dropLast = l₁ := by
    rw [hu]
    exact List.dropLast_concat
  intro m hm
  rw [hu] at hm
  rcases List.mem_append.mp hm with h1 | h1
  · obtain ⟨_, _, hP⟩ := hD.2 n nd hnd
    obtain ⟨_, hPre, _⟩ := hP e he p hp hn
    exact hPre m (by rw [hdl]; exact h1)
  · have hmn : m = n := by simpa using h1
    subst hmn
    exact ⟨nd, hnd⟩

theorem dictInv_chain {g : RoadNetwork} {paths : List (Int × List Int)}
    {timesL : List (Int × ℚ)} {d : List (Int × BTreeNode)}
    (hD : DictInv g paths timesL d)
    (hnodup : ∀ e ∈ g.escape_nodes, ∀ p, paths.lookup e = some p → (0 :: p).Nodup) :
    ∀ (k : Nat) (n : Int) (nd : BTreeNode), (n, nd) ∈ d →
      ∀ e ∈ g.escape_nodes, ∀ p, paths.lookup e = some p → n ∈ 0 :: p →
      (upto n (0 :: p)).length ≤ k →
      AncChain d n ((upto n (0 :: p)).dropLast.reverse) := by
  intro k
  induction k with
  | zero =>
    intro n nd hnd e he p hp hn hk
    exact absurd hk (by
      have hne := upto_ne_nil n (0 :: p) hn
      cases hu : upto n (0 :: p) with
      | nil => exact absurd hu hne
      | cons x xs => simp)
  | succ k ih =>
    intro n nd hnd e he p hp hn hk
    obtain ⟨l₁, l₂, hsplit, hnot, hu⟩ := upto_decomp n (0 :: p) hn
    obtain ⟨hT, hF, hP⟩ := hD.2 n nd hnd
    obtain ⟨hPar, hPre, hNJ⟩ := hP e he p hp hn
    have hdl : (upto n (0 :: p)).dropLast = l₁ := by
      rw [hu]
      exact List.dropLast_concat
    rw [hdl]
    rcases eq_or_ne l₁ [] with hl₁ | hl₁
    · subst hl₁
      have hpn : nd.parent = none := by
        rw [hPar]
        unfold prevOf
        rw [hdl]
        rfl
      exact AncChain.root n nd hnd hpn
    · have hql : l₁.dropLast ++ [l₁.getLast hl₁] = l₁ := List.dropLast_append_getLast hl₁
      have hprev : nd.parent = some (l₁.getLast hl₁) := by
        rw [hPar]
        unfold prevOf
        rw [hdl]
        exact List.getLast?_eq_getLast l₁ hl₁
      have hqmem : l₁.getLast hl₁ ∈ l₁ := List.getLast_mem hl₁
      obtain ⟨qd, hqd⟩ := hPre (l₁.getLast hl₁) (by rw [hdl]; exact hqmem)
      have hqp : l₁.getLast hl₁ ∈ 0 :: p := by
        rw [hsplit]
        exact List.mem_append.mpr (Or.inl hqmem)
      have hnodup0 : (0 :: p).Nodup := hnodup e he p hp
      have hl₁nodup : l₁.Nodup := by
        rw [hsplit, List.nodup_append] at hnodup0
        exact hnodup0.1
      have hqnot : l₁.getLast hl₁ ∉ l₁.dropLast := by
        have h2 : (l₁.dropLast ++ [l₁.getLast hl₁]).Nodup := by
          rw [hql]
          exact hl₁nodup
        rw [List.nodup_append] at h2
        intro hmem
        exact h2.2.2 hmem (List.mem_cons_self _ _)
      have hsplit2 : 0 :: p = l₁.dropLast ++ l₁.getLast hl₁ :: (n :: l₂) := by
        rw [hsplit]
        conv_lhs => rw [← hql]
        rw [List.append_assoc, List.singleton_append]
      have huq : upto (l₁.getLast hl₁) (0 :: p) = l₁.dropLast ++ [l₁.getLast hl₁] := by
        rw [hsplit2]
        exact upto_append_of_not_mem _ _ _ hqnot
      have hlen : (upto (l₁.getLast hl₁) (0 :: p)).length ≤ k := by
        rw [huq]
        have h1 : (upto n (0 :: p)).length = l₁.length + 1 := by
          rw [hu, List.length_append, List.length_singleton]
        have h2 : (l₁.dropLast ++ [l₁.getLast hl₁]).length = l₁.length := by
          rw [hql]
        rw [h2]
        omega
      have hchain := ih (l₁.getLast hl₁) qd hqd e he p hp hqp hlen
      rw [huq, List.dropLast_concat] at hchain
      have hrev : l₁.reverse = l₁.getLast hl₁ :: l₁.dropLast.reverse := by
        conv_lhs => rw [← hql]
        rw [List.reverse_append, List.reverse_singleton, List.singleton_append]
      rw [hrev]
      exact AncChain.step n nd (l₁.getLast hl₁) l₁.dropLast.reverse hnd hprev hchain

theorem ancChain_unique (d : List (Int × BTreeNode)) (hk : (d.map Prod.fst).Nodup) :
    ∀ (n : Int) (c₁ : List Int), AncChain d n c₁ → ∀ c₂, AncChain d n c₂ → c₁ = c₂ := by
  intro n c₁ h₁
  induction h₁ with
  | root n nd hnd hpar =>
    intro c₂ h₂
    cases h₂ with
    | root => rfl
    | step _ nd2 q2 c2 hnd2 hpar2 hch2 =>
      have hde := entry_unique d hk n nd nd2 hnd hnd2
      rw [← hde, hpar] at hpar2
      cases hpar2
  | step n nd q c hnd hpar hch ih =>
    intro c₂ h₂
    cases h₂ with
    | root _ nd2 hnd2 hpar2 =>
      have hde := entry_unique d hk n nd nd2 hnd hnd2
      rw [← hde, hpar] at hpar2
      cases hpar2
    | step _ nd2 q2 c2 hnd2 hpar2 hch2 =>
      have hde := entry_unique d hk n nd nd2 hnd hnd2
      rw [← hde, hpar] at hpar2
      have hq : q = q2 := Option.some.inj hpar2
      subst hq
      rw [ih c2 hch2]

/-- C5 (amended): over a consistent family of escape paths — each
`[0, *path]` duplicate-free and any two agreeing up to every shared node,
as the prefix-sharing paths of a Dijkstra shortest-path dict do — and
with `time_elapsed ≥ 0`, every node of the tree built by
`build_lkp_rooted_tree` has as its ancestor chain exactly the reversed
walked segment before it, each root-to-node chain contains at most one
node with `is_njoi = true`, and it contains one iff some node on the
chain has positive `time_reached` (equivalently: zero exactly when every
node on the chain has `time_reached ≤ 0`).  Over arbitrary path sets the
original claim is false (`build_two_njois_counterexample`). -/
theorem build_lkp_rooted_tree_njoi_invariant
    (g : RoadNetwork) (lkpu lkpv : Int) (times0 : List (Int × ℚ))
    (paths : List (Int × List Int)) (te : ℚ) (st : BuildState)
    (hte : 0 ≤ te) (hfam : FamilyConsistent g paths)
    (hb : build_lkp_rooted_tree g lkpu lkpv times0 paths te = some st) :
    ∀ n nd, (n, nd) ∈ st.tree_dict →
    ∀ e ∈ g.escape_nodes, ∀ p, paths.lookup e = some p → n ∈ 0 :: p →
      AncChain st.tree_dict n ((upto n (0 :: p)).dropLast.reverse) ∧
      (∀ m₁ ∈ upto n (0 :: p), ∀ m₂ ∈ upto n (0 :: p), ∀ md₁ md₂,
        (m₁, md₁) ∈ st.tree_dict → (m₂, md₂) ∈ st.tree_dict →
        md₁.is_njoi = true → md₂.is_njoi = true → m₁ = m₂) ∧
      ((∃ m ∈ upto n (0 :: p), ∃ md, (m, md) ∈ st.tree_dict ∧ md.is_njoi = true) ↔
        (∃ m ∈ upto n (0 :: p), ∃ md, (m, md) ∈ st.tree_dict ∧ 0 < md.time_reached)) := by
  intro n nd hnd e he p hp hn
  have hD := build_dictInv g lkpu lkpv times0 paths te st hte hfam hb
  refine ⟨?_, ?_, ?_⟩
  · exact dictInv_chain hD hfam.1 (upto n (0 :: p)).length n nd hnd e he p hp hn le_rfl
  · intro m₁ hm₁ m₂ hm₂ md₁ md₂ hmd₁ hmd₂ hj₁ hj₂
    by_contra hne
    have hm₁p : m₁ ∈ 0 :: p := upto_sub n (0 :: p) m₁ hm₁
    have hm₂p : m₂ ∈ 0 :: p := upto_sub n (0 :: p) m₂ hm₂
    rcases upto_mem_antisymm m₁ m₂ (0 :: p) hm₁p hm₂p hne with hcase | hcase
    · obtain ⟨_, _, hP₂⟩ := hD.2 m₂ md₂ hmd₂
      obtain ⟨_, _, hNJ₂⟩ := hP₂ e he p hp hm₂p
      obtain ⟨_, hle⟩ := hNJ₂.mp hj₂
      obtain ⟨tm, htm, htmle⟩ := hle m₁ hcase
      obtain ⟨hT₁, _, hP₁⟩ := hD.2 m₁ md₁ hmd₁
      obtain ⟨_, _, hNJ₁⟩ := hP₁ e he p hp hm₁p
      obtain ⟨hpos, _⟩ := hNJ₁.mp hj₁
      rw [hT₁] at htm
      have heq : md₁.time_reached = tm := Option.some.inj htm
      rw [heq] at hpos
      linarith
    · obtain ⟨_, _, hP₁⟩ := hD.2 m₁ md₁ hmd₁
      obtain ⟨_, _, hNJ₁⟩ := hP₁ e he p hp hm₁p
      obtain ⟨_, hle⟩ := hNJ₁.mp hj₁
      obtain ⟨tm, htm, htmle⟩ := hle m₂ hcase
      obtain ⟨hT₂, _, hP₂⟩ := hD.2 m₂ md₂ hmd₂
      obtain ⟨_, _, hNJ₂⟩ := hP₂ e he p hp hm₂p
      obtain ⟨hpos, _⟩ := hNJ₂.mp hj₂
      rw [hT₂] at htm
      have heq : md₂.time_reached = tm := Option.some.inj htm
      rw [heq] at hpos
      linarith
  · constructor
    · rintro ⟨m, hm, md, hmd, hj⟩
      obtain ⟨_, _, hP⟩ := hD.2 m md hmd
      obtain ⟨_, _, hNJ⟩ := hP e he p hp (upto_sub n (0 :: p) m hm)
      exact ⟨m, hm, md, hmd, (hNJ.mp hj).1⟩
    · rintro ⟨m, hm, md, hmd, hpos⟩
      have hmem : ∀ m' ∈ upto n (0 :: p), ∃ md', (m', md') ∈ st.tree_dict :=
        dictInv_upto_mem hD n nd hnd e he p hp hn
      obtain ⟨hTm, _, _⟩ := hD.2 m md hmd
      obtain ⟨l₁, m₀, l₂, hsplit, hPm₀, hfirst⟩ :=
        exists_first (fun m' => ∃ tm, ((0, -te) :: times0).lookup m' = some tm ∧ 0 < tm)
          (upto n (0 :: p)) ⟨m, hm, md.time_reached, hTm, hpos⟩
      have hm₀u : m₀ ∈ upto n (0 :: p) := by
        rw [hsplit]
        exact List.mem_append.mpr (Or.inr (List.mem_cons_self _ _))
      obtain ⟨md₀, hmd₀⟩ := hmem m₀ hm₀u
      have hnodup0 : (0 :: p).Nodup := hfam.1 e he p hp
      have hund : (upto n (0 :: p)).Nodup := upto_nodup n (0 :: p) hn hnodup0
      have hm₀not : m₀ ∉ l₁ := by
        rw [hsplit, List.nodup_append] at hund
        intro hmm
        exact hund.2.2 hmm (List.mem_cons_self _ _)
      have hup₀ : upto m₀ (0 :: p) = l₁ ++ [m₀] := by
        rw [upto_upto n m₀ (0 :: p) hm₀u, hsplit]
        exact upto_append_of_not_mem m₀ l₁ l₂ hm₀not
      obtain ⟨hT₀, _, hP₀⟩ := hD.2 m₀ md₀ hmd₀
      obtain ⟨_, _, hNJ₀⟩ := hP₀ e he p hp (upto_sub n (0 :: p) m₀ hm₀u)
      have hdl₀ : (upto m₀ (0 :: p)).dropLast = l₁ := by
        rw [hup₀]
        exact List.dropLast_concat
      have hj₀ : md₀.is_njoi = true := by
        apply hNJ₀.mpr
        constructor
        · obtain ⟨tm, hlk, htm⟩ := hPm₀
          rw [hT₀] at hlk
          have heq := Option.some.inj hlk
          rw [heq]
          exact htm
        · intro m' hm'
          rw [hdl₀] at hm'
          have hm'u : m' ∈ upto n (0 :: p) := by
            rw [hsplit]
            exact List.mem_append.mpr (Or.inl hm')
          obtain ⟨md', hmd'⟩ := hmem m' hm'u
          obtain ⟨hT', _, _⟩ := hD.2 m' md' hmd'
          refine ⟨md'.time_reached, hT', ?_⟩
          by_contra hpos'
          push_neg at hpos'
          exact hfirst m' hm' ⟨md'.time_reached, hT', hpos'⟩
      exact ⟨m₀, hm₀u, md₀, hmd₀, hj₀⟩

/-- The network of the C5 witness: escape nodes 10 and 11 whose paths
share the consistent prefix [1, 2]; last edges (2, 10) and (2, 11) are
rank 1, so each path's base score is 80. -/
def njoiWitNet : RoadNetwork :=
  ⟨[], [⟨2, 10, 1, "no", 1⟩, ⟨2, 11, 1, "no", 1⟩], [10, 11]⟩

/-- Times for the C5 witness: node 1 and the escape nodes in the future,
node 2 already passed. -/
def njoiWitTimes : List (Int × ℚ) :=
  [(1, 500000), (2, -1), (10, 600000), (11, 700000)]

/-- Paths for the C5 witness: a consistent (prefix-sharing) family. -/
def njoiWitPaths : List (Int × List Int) :=
  [(10, [1, 2, 10]), (11, [1, 2, 11])]

/-- The tree dict `build_lkp_rooted_tree` produces on the witness input
(time_elapsed = 1). -/
def njoiWitDict : List (Int × BTreeNode) :=
  [(0, ⟨none, -1, 0, false, none⟩),
   (1, ⟨some 0, 500000, 160, true, some 0⟩),
   (2, ⟨some 1, -1, 0, false, none⟩),
   (10, ⟨some 2, 600000, 80, false, some 1⟩),
   (11, ⟨some 2, 700000, 80, false, some 2⟩)]

/-- Witness for the amended C5 at the consistent two-path family above,
instantiated at the tree node 10 on the path of escape node 10. -/
theorem build_lkp_rooted_tree_njoi_invariant_witness :
    (0 : ℚ) ≤ 1 ∧
    FamilyConsistent njoiWitNet njoiWitPaths ∧
    build_lkp_rooted_tree njoiWitNet 1 2 njoiWitTimes njoiWitPaths 1 =
      some ⟨njoiWitDict, 3⟩ ∧
    (AncChain njoiWitDict 10 ((upto 10 (0 :: [1, 2, 10])).dropLast.reverse) ∧
      (∀ m₁ ∈ upto 10 (0 :: [1, 2, 10]), ∀ m₂ ∈ upto 10 (0 :: [1, 2, 10]), ∀ md₁ md₂,
        (m₁, md₁) ∈ njoiWitDict → (m₂, md₂) ∈ njoiWitDict →
        md₁.is_njoi = true → md₂.is_njoi = true → m₁ = m₂) ∧
      ((∃ m ∈ upto 10 (0 :: [1, 2, 10]), ∃ md, (m, md) ∈ njoiWitDict ∧
          md.is_njoi = true) ↔
        (∃ m ∈ upto 10 (0 :: [1, 2, 10]), ∃ md, (m, md) ∈ njoiWitDict ∧
          0 < md.time_reached))) := by
  have hfam : FamilyConsistent njoiWitNet njoiWitPaths := by
    constructor
    · intro e he p hp
      simp [njoiWitNet] at he
      rcases he with rfl | rfl <;> simp [njoiWitPaths, List.lookup] at hp <;>
        subst hp <;> decide
    · intro e he e2 he2 p p2 hp hp2
      simp [njoiWitNet] at he he2
      rcases he with rfl | rfl <;> rcases he2 with rfl | rfl <;>
        simp [njoiWitPaths, List.lookup] at hp hp2 <;> subst hp <;> subst hp2 <;> decide
  have hs5 : score_contribution 80 500000 = 80 := score_contribution_of_large _ _ (by norm_num)
  have hs6 : score_contribution 80 600000 = 80 := score_contribution_of_large _ _ (by norm_num)
  have hs7 : score_contribution 80 700000 = 80 := score_contribution_of_large _ _ (by norm_num)
  have hn1 : score_contribution 80 (-1) = 0 := (score_contribution_eq_floor _ _).2 (by norm_num)
  have hb : build_lkp_rooted_tree njoiWitNet 1 2 njoiWitTimes njoiWitPaths 1 =
      some ⟨njoiWitDict, 3⟩ := by
    unfold build_lkp_rooted_tree
    simp [njoiWitNet, njoiWitTimes, njoiWitPaths, njoiWitDict, List.foldl,
      walk_pairs, pairsFrom, en_score_value, RoadNetwork.get_edge_hw_as_int,
      RoadNetwork.get_edge_data, SCORE_LAST_EDGE_FACTOR, walk_step, njoi_truthy,
      add_score, List.lookup, hs5, hs6, hs7, hn1,
      (by norm_num : (0 : ℚ) < 500000), (by norm_num : (0 : ℚ) < 600000),
      (by norm_num : (0 : ℚ) < 700000), (by norm_num : ¬((0 : ℚ) < -1))]
  refine ⟨by norm_num, hfam, hb, ?_⟩
  exact build_lkp_rooted_tree_njoi_invariant njoiWitNet 1 2 njoiWitTimes njoiWitPaths 1
    ⟨njoiWitDict, 3⟩ (by norm_num) hfam hb 10 ⟨some 2, 600000, 80, false, some 1⟩
    (by simp [njoiWitDict]) 10 (by simp [njoiWitNet]) [1, 2, 10] (by decide) (by decide)

end GraphTactics
